import Mathlib

/-!
A shallow embedding of the `mklndir` tree-mirroring engine.

This file embeds the recursive directory-hardlinking engine of
`src/mklndir/core.py` (class `DirectoryHardlinker`) and proves statements
about its specified behavior.

Modelling conventions:

* A filesystem path is a list of name segments (`FPath`).
* The source tree is a value of the inductive type `SNode`, reflecting what
  the Python code observes through `FPath.iterdir` / `is_file` / `is_dir`:
  a regular file with an identity (device, inode), a directory with an
  ordered listing, or anything else ("special", the final `else` branch).
* The target filesystem is a lookup function `TFS` from paths to entries;
  mutation is explicit functional update.  `FPath.exists` is `≠ none` of the
  lookup, `FPath.samefile` compares identities.
* Fallible OS primitives (`iterdir`, `mkdir`, `os.link`, `FPath.unlink`) take
  their outcomes from an environment `FSOracle`: `none` means the call
  succeeds, `some e` means it raises the Python exception modelled by `e`.
  Non-fallible observations (`exists`, `is_file`, `is_dir`, `samefile`) are
  modelled as total.
* `self.stats` and the messages passed to `self.log` are threaded through an
  explicit `EngineState`.  In the Python code the `verbose` flag only gates
  the `print` inside `log` (core.py lines 22-25); it changes no counter and
  no control flow, so the model records every message passed to `log` and
  keeps `verbose` as an inert configuration field.
* A Python exception that propagates out of a call is an `Except.error`
  carrying the exception together with the state at the moment of the raise
  (the mutable `self.stats` updates made before the raise survive it).
-/

/-- A filesystem path, as a list of name segments. -/
abbrev FPath := List String

/-- File identity as compared by `FPath.samefile`: a (device, inode) pair. -/
abbrev Ident := Nat × Nat

/-- An entry of the target filesystem as the engine can observe it. -/
inductive TEntry where
  | file (id : Ident)
  | dir
deriving DecidableEq

/-- The target filesystem: what the exact-path lookups of the engine see. -/
abbrev TFS := FPath → Option TEntry

/-- The statistics dictionary initialised at core.py line 20. -/
structure Stats where
  files_linked : Nat
  dirs_created : Nat
  errors : Nat
  skipped : Nat
deriving DecidableEq

/-- A Python exception, as far as the engine's handlers distinguish them:
`osErr n` is an `OSError` with `errno = n` (a `PermissionError` is the
`OSError` with errno 1 or 13), `other` is any non-`OSError` exception. -/
inductive PyErr where
  | osErr (errno : Nat)
  | other
deriving DecidableEq

/-- Whether an exception is a `PermissionError` (EPERM or EACCES). -/
def isPermissionErr : PyErr → Bool
  | .osErr 1 => true
  | .osErr 13 => true
  | _ => false

/-- One message passed to `self.log`; one constructor per call site in
core.py (line numbers in the comments). -/
inductive LogMsg where
  | sourceNotExist (p : FPath)               -- line 47
  | sourceNotDir (p : FPath)                 -- line 51
  | createdTargetDir (p : FPath)             -- line 58
  | errorDuringHardlinking                  -- line 64
  | excluding (p : FPath)                    -- line 95
  | createdDir (p : FPath)                   -- line 108
  | skippingSpecial (p : FPath)              -- line 115
  | permissionDenied                        -- line 119
  | unexpectedError                         -- line 123
  | targetExistsSkipping (p : FPath)         -- line 137
  | alreadyHardlinked (p : FPath)            -- line 143
  | removedExisting (p : FPath)              -- line 149
  | hardlinked (src tgt : FPath)             -- line 155
  | crossDeviceLinkError (src tgt : FPath)   -- line 161
  | osLinkError (src : FPath) (errno : Nat)  -- line 166
  | unexpectedLinkError (src : FPath)        -- line 170
deriving DecidableEq

/-- The constructor flags of `DirectoryHardlinker.__init__` (lines 17-19). -/
structure Config where
  verbose : Bool
  dry_run : Bool

/-- Outcomes of the fallible OS primitives: `none` = the call succeeds,
`some e` = the call raises `e`. -/
structure FSOracle where
  iterdirErr : FPath → Option PyErr
  mkdirErr : FPath → Option PyErr
  linkErr : FPath → FPath → Option PyErr
  unlinkErr : FPath → Option PyErr

/-- A node of the source tree, as classified by lines 101-115 of core.py:
`is_file()`, `is_dir()` (with its ordered `iterdir()` listing), or neither. -/
inductive SNode where
  | file (id : Ident)
  | dir (entries : List (String × SNode))
  | special

/-- What the precondition checks of `hardlink_directory` (lines 46-52) can
see of the `source` argument: missing, existing but not a directory, or a
directory with its listing. -/
inductive SourceArg where
  | missing
  | nonDir
  | dir (entries : List (String × SNode))

/-- The mutable state of one engine invocation: `self.stats`, the target
filesystem, and the trace of messages passed to `self.log`. -/
structure EngineState where
  stats : Stats
  tfs : TFS
  trace : List LogMsg

/-- A Python exception propagating out of a call, with the state at the
moment of the raise. -/
abbrev Raised := PyErr × EngineState

/-! ## Target-filesystem primitives -/

/-- `os.link(source, target)`: the target path now names an entry `e`. -/
def fsSet (T : TFS) (p : FPath) (e : TEntry) : TFS :=
  fun q => if q = p then some e else T q

/-- `FPath.unlink()`: the path no longer names anything. -/
def fsRemove (T : TFS) (p : FPath) : TFS :=
  fun q => if q = p then none else T q

/-- One `mkdir` step with `exist_ok=True`: create the directory if the path
is free, keep whatever is already there otherwise. -/
def fsMkdirOne (T : TFS) (p : FPath) : TFS :=
  fun q => if q = p then some ((T p).getD .dir) else T q

/-- The nonempty ancestors of `p`, `p` included: `mkdir(parents=True)`
creates every missing one of them. -/
def ancestorPaths (p : FPath) : List FPath :=
  (List.range p.length).map (fun k => p.take (k + 1))

/-- `FPath.mkdir(parents=True, exist_ok=True)`. -/
def fsMkdirParents (T : TFS) (p : FPath) : TFS :=
  (ancestorPaths p).foldl fsMkdirOne T

/-! ## State helpers -/

/-- `self.log(message)`: the message is recorded; `verbose` only gates the
`print` inside `log`, so the model records unconditionally. -/
def logMsg (st : EngineState) (m : LogMsg) : EngineState :=
  { st with trace := st.trace ++ [m] }

def bumpLinked (st : EngineState) : EngineState :=
  { st with stats := { st.stats with files_linked := st.stats.files_linked + 1 } }

def bumpDirs (st : EngineState) : EngineState :=
  { st with stats := { st.stats with dirs_created := st.stats.dirs_created + 1 } }

def bumpErrors (st : EngineState) : EngineState :=
  { st with stats := { st.stats with errors := st.stats.errors + 1 } }

def bumpSkipped (st : EngineState) : EngineState :=
  { st with stats := { st.stats with skipped := st.stats.skipped + 1 } }

/-! ## `fnmatch.fnmatch`

The pattern is translated to a token list following the scanning rules of
`fnmatch.translate` (`*`, `?`, `[...]` classes with optional `!` negation
and a leading `]` counted as class content, an unterminated `[` taken
literally), then matched against the whole subject string.  On POSIX
`os.path.normcase` is the identity, so no case folding happens. -/

/-- A token of a translated glob pattern. -/
inductive GTok where
  | star
  | anyChar
  | lit (c : Char)
  | cls (neg : Bool) (items : List (Char × Char))

/-- Split a character-class body at its closing `]`. -/
def findClose : List Char → Option (List Char × List Char)
  | [] => none
  | c :: r =>
    if c = ']' then some ([], r)
    else (findClose r).map fun x => (c :: x.1, x.2)

/-- Interpret the raw contents of a class: `a-b` is a range, anything else
a literal member (so a leading or trailing `-` is literal). -/
def classItems : List Char → List (Char × Char)
  | a :: '-' :: b :: r => (a, b) :: classItems r
  | c :: r => (c, c) :: classItems r
  | [] => []

/-- Scan the part of a character class after the optional `!`: an immediate
`]` stands for itself, then everything up to the closing `]`; `none` when
there is no closing bracket. -/
def classScanBody (cs : List Char) : Option (List (Char × Char) × List Char) :=
  if cs.head? = some ']' then
    (findClose cs.tail).map fun x => (classItems (']' :: x.1), x.2)
  else
    (findClose cs).map fun x => (classItems x.1, x.2)

/-- Scan a character class starting right after the `[`: an optional `!`
negation, then the class body. -/
def classScan (cs : List Char) : Option (Bool × List (Char × Char) × List Char) :=
  if cs.head? = some '!' then (classScanBody cs.tail).map fun x => (true, x.1, x.2)
  else (classScanBody cs).map fun x => (false, x.1, x.2)

theorem findClose_length :
    ∀ cs body rest, findClose cs = some (body, rest) → rest.length < cs.length := by
  intro cs
  induction cs with
  | nil => intro body rest h; simp [findClose] at h
  | cons c r ih =>
    intro body rest h
    rw [findClose] at h
    by_cases hc : c = ']'
    · rw [if_pos hc] at h
      cases h
      simp
    · rw [if_neg hc] at h
      rcases Option.map_eq_some'.mp h with ⟨⟨b1, r1⟩, hfc, hx⟩
      cases hx
      have := ih _ _ hfc
      simp only [List.length_cons]
      omega

theorem classScanBody_length {cs : List Char} {its : List (Char × Char)}
    {rest : List Char} (h : classScanBody cs = some (its, rest)) :
    rest.length ≤ cs.length := by
  have htail : cs.tail.length ≤ cs.length := by cases cs <;> simp
  unfold classScanBody at h
  split at h
  · cases hfc : findClose cs.tail with
    | none => rw [hfc] at h; simp at h
    | some x =>
      obtain ⟨b1, r1⟩ := x
      rw [hfc] at h
      simp at h
      obtain ⟨-, hB⟩ := h
      subst hB
      have h1 := findClose_length _ _ _ hfc
      omega
  · cases hfc : findClose cs with
    | none => rw [hfc] at h; simp at h
    | some x =>
      obtain ⟨b1, r1⟩ := x
      rw [hfc] at h
      simp at h
      obtain ⟨-, hB⟩ := h
      subst hB
      have h1 := findClose_length _ _ _ hfc
      omega

theorem classScan_length {cs : List Char} {b : Bool} {its : List (Char × Char)}
    {rest : List Char} (h : classScan cs = some (b, its, rest)) :
    rest.length ≤ cs.length := by
  have htail : cs.tail.length ≤ cs.length := by cases cs <;> simp
  unfold classScan at h
  split at h
  · cases hsb : classScanBody cs.tail with
    | none => rw [hsb] at h; simp at h
    | some x =>
      obtain ⟨i1, r1⟩ := x
      rw [hsb] at h
      simp at h
      obtain ⟨-, -, hC⟩ := h
      subst hC
      have h1 := classScanBody_length hsb
      omega
  · cases hsb : classScanBody cs with
    | none => rw [hsb] at h; simp at h
    | some x =>
      obtain ⟨i1, r1⟩ := x
      rw [hsb] at h
      simp at h
      obtain ⟨-, -, hC⟩ := h
      subst hC
      have h1 := classScanBody_length hsb
      omega

/-- `fnmatch.translate`, as a token list instead of a regex. -/
def translateToks : List Char → List GTok
  | [] => []
  | c :: r =>
    if c = '*' then .star :: translateToks r
    else if c = '?' then .anyChar :: translateToks r
    else if c = '[' then
      match h : classScan r with
      | some (neg, its, rest) => .cls neg its :: translateToks rest
      | none => .lit '[' :: translateToks r
    else .lit c :: translateToks r
termination_by cs => cs.length
decreasing_by
  · simp only [List.length_cons]; omega
  · simp only [List.length_cons]; omega
  · have := classScan_length h
    simp only [List.length_cons]; omega
  · simp only [List.length_cons]; omega
  · simp only [List.length_cons]; omega

/-- Class membership: any item range contains the character. -/
def inCls (items : List (Char × Char)) (c : Char) : Bool :=
  items.any fun ab => decide (ab.1 ≤ c) && decide (c ≤ ab.2)

/-- Match a token list against a whole string (the translated regex is
anchored at both ends). -/
def gmatch : List GTok → List Char → Bool
  | [], [] => true
  | [], _ :: _ => false
  | .star :: ts, [] => gmatch ts []
  | .star :: ts, c :: cs => gmatch ts (c :: cs) || gmatch (.star :: ts) cs
  | .anyChar :: ts, _ :: cs => gmatch ts cs
  | .anyChar :: _, [] => false
  | .lit a :: ts, c :: cs => a == c && gmatch ts cs
  | .lit _ :: _, [] => false
  | .cls neg its :: ts, c :: cs => (inCls its c != neg) && gmatch ts cs
  | .cls _ _ :: _, [] => false
termination_by ts cs => ts.length + cs.length

/-- `fnmatch.fnmatch(s, pat)` as called at core.py lines 76-78. -/
def fnmatch (s : String) (pat : String) : Bool :=
  gmatch (translateToks pat.data) s.data

/-! ## Exclusion (`_should_exclude`, lines 67-80) -/

/-- `str(path)` for a segment path. -/
def pathStr (p : FPath) : String := String.intercalate "/" p

/-- `path.name` for a segment path. -/
def pathName (p : FPath) : String := (p.getLast?).getD ""

/-- `_should_exclude`: some pattern matches the full path string or the
final name.  `None` for `exclude_patterns` is modelled as the empty list
(both make the Python function return `False` immediately). -/
def should_exclude (p : FPath) (exclude_patterns : List String) : Bool :=
  exclude_patterns.any fun pat =>
    fnmatch (pathStr p) pat || fnmatch (pathName p) pat

/-! ## The engine

`_hardlink_file` (lines 129-172) is split into the helpers `linkFail` (the
`except` arms, lines 159-172) and `doLink` (the link-creation part, lines
151-157) plus the main dispatch.  `_hardlink_recursive` (lines 82-127) is
`hlRec`; its loop body over the listing is `hlEntries`, whose `Except`
result models an exception escaping the loop to the `except` arms (which
`listErrState` embeds).  `hardlink_directory` (lines 27-65) is the public
entry point. -/

/-- Lines 118-125: the two `except` arms of `_hardlink_recursive`.  Both
count one error; they differ only in the message. -/
def listErrState (e : PyErr) (st : EngineState) : EngineState :=
  bumpErrors (logMsg st (if isPermissionErr e then .permissionDenied else .unexpectedError))

/-- Lines 105-109: for a child directory, create the target subdirectory
when it is missing (`mkdir(parents=True, exist_ok=True)`, skipped under
dry-run, and it may raise), log it and count it (in dry-run too). -/
def dirStep (cfg : Config) (o : FSOracle) (tgtItem : FPath) (st : EngineState) :
    Except Raised EngineState :=
  match st.tfs tgtItem with
  | some _ => .ok st
  | none =>
    match (if cfg.dry_run then none else o.mkdirErr tgtItem) with
    | some e => .error (e, st)
    | none =>
      .ok (bumpDirs (logMsg
        { st with tfs := if cfg.dry_run then st.tfs else fsMkdirParents st.tfs tgtItem }
        (.createdDir tgtItem)))

/-- The `try`-boundary of `_hardlink_recursive`: an exception escaping the
loop is handled by the `except` arms of lines 118-125. -/
def wrapRec (res : Except Raised (Bool × EngineState)) : Bool × EngineState :=
  match res with
  | .ok bs => bs
  | .error (e, s) => (false, listErrState e s)

/-- Lines 159-172: the `except` arms of `_hardlink_file`.  An `OSError`
with errno 18 (EXDEV) gets the cross-device message, any other `OSError`
the generic one, a non-OS exception the unexpected one; each arm counts
one error and returns `False`. -/
def linkFail (srcP tgtP : FPath) (e : PyErr) (st : EngineState) : Bool × EngineState :=
  match e with
  | .osErr n =>
    if n = 18 then (false, bumpErrors (logMsg st (.crossDeviceLinkError srcP tgtP)))
    else (false, bumpErrors (logMsg st (.osLinkError srcP n)))
  | .other => (false, bumpErrors (logMsg st (.unexpectedLinkError srcP)))

/-- Lines 151-157: `os.link` (skipped under dry-run), then the log message
and the `files_linked` increment, which happen in dry-run too. -/
def doLink (cfg : Config) (o : FSOracle) (srcP : FPath) (id : Ident)
    (tgtP : FPath) (st : EngineState) : Bool × EngineState :=
  match (if cfg.dry_run then none else o.linkErr srcP tgtP) with
  | some e => linkFail srcP tgtP e st
  | none =>
    (true, bumpLinked (logMsg
      { st with tfs := if cfg.dry_run then st.tfs else fsSet st.tfs tgtP (.file id) }
      (.hardlinked srcP tgtP)))

/-- `source_file.samefile(target_file)`: same (device, inode).  A directory
entry never has the identity of a regular source file. -/
def sameFile (e : TEntry) (id : Ident) : Bool :=
  match e with
  | .file i => i == id
  | .dir => false

/-- `_hardlink_file` (lines 129-172): the per-file policy. -/
def hardlink_file (cfg : Config) (o : FSOracle) (srcP : FPath) (id : Ident)
    (tgtP : FPath) (overwrite : Bool) (st : EngineState) : Bool × EngineState :=
  match st.tfs tgtP with
  | some e =>
    if !overwrite then
      (true, bumpSkipped (logMsg st (.targetExistsSkipping tgtP)))
    else if sameFile e id then
      (true, bumpSkipped (logMsg st (.alreadyHardlinked tgtP)))
    else
      match (if cfg.dry_run then none else o.unlinkErr tgtP) with
      | some er => linkFail srcP tgtP er st
      | none =>
        doLink cfg o srcP id tgtP
          (logMsg { st with tfs := if cfg.dry_run then st.tfs else fsRemove st.tfs tgtP }
            (.removedExisting tgtP))
  | none => doLink cfg o srcP id tgtP st

/-- The loop body of `_hardlink_recursive` (lines 93-116) over the listing
of one directory.  `success` is the running conjunction of line 90; an
`Except.error` is an exception escaping the loop (only `mkdir` at line 107
can raise inside it; everything else is caught deeper down).  For a child
directory, the `match` on the target entry is lines 105-109 and the inner
wrapper around the recursive call is `_hardlink_recursive` applied to the
child, inlined so that the recursion is structural in the listing. -/
def hlEntries (cfg : Config) (o : FSOracle) (overwrite : Bool) (pats : List String) :
    List (String × SNode) → FPath → FPath → Bool → EngineState →
    Except Raised (Bool × EngineState)
  | [], _, _, success, st => .ok (success, st)
  | (name, node) :: rest, srcP, tgtP, success, st =>
    if should_exclude (srcP ++ [name]) pats then
      hlEntries cfg o overwrite pats rest srcP tgtP success
        (bumpSkipped (logMsg st (.excluding (srcP ++ [name]))))
    else
      match node with
      | .file id =>
        let r := hardlink_file cfg o (srcP ++ [name]) id (tgtP ++ [name]) overwrite st
        hlEntries cfg o overwrite pats rest srcP tgtP (success && r.1) r.2
      | .dir sub =>
        match dirStep cfg o (tgtP ++ [name]) st with
        | .error es => .error es
        | .ok st1 =>
          let r :=
            match o.iterdirErr (srcP ++ [name]) with
            | some e => (false, listErrState e st1)
            | none =>
              wrapRec (hlEntries cfg o overwrite pats sub (srcP ++ [name]) (tgtP ++ [name]) true st1)
          hlEntries cfg o overwrite pats rest srcP tgtP (success && r.1) r.2
      | .special =>
        hlEntries cfg o overwrite pats rest srcP tgtP success
          (bumpSkipped (logMsg st (.skippingSpecial (srcP ++ [name]))))

/-- `_hardlink_recursive` (lines 82-127): list the directory, run the loop,
catch any exception escaping either. -/
def hlRec (cfg : Config) (o : FSOracle) (overwrite : Bool) (pats : List String)
    (entries : List (String × SNode)) (srcP tgtP : FPath) (st : EngineState) :
    Bool × EngineState :=
  match o.iterdirErr srcP with
  | some e => (false, listErrState e st)
  | none => wrapRec (hlEntries cfg o overwrite pats entries srcP tgtP true st)

/-- `hardlink_directory` (lines 27-65).  The precondition checks are lines
46-52; the target-root creation is lines 54-59 — note that this `mkdir` is
*outside* any `try`, so its exception propagates to the caller
(`Except.error`), and the increment at line 59 is not reached.  The
`try/except` at lines 61-65 around `_hardlink_recursive` never fires in the
model because `hlRec` is total, so it is the plain call. -/
def hardlink_directory (cfg : Config) (o : FSOracle) (src : SourceArg)
    (srcP tgtP : FPath) (overwrite : Bool) (pats : List String)
    (st : EngineState) : Except Raised (Bool × EngineState) :=
  match src with
  | .missing => .ok (false, logMsg st (.sourceNotExist srcP))
  | .nonDir => .ok (false, logMsg st (.sourceNotDir srcP))
  | .dir entries =>
    match st.tfs tgtP with
    | some _ => .ok (hlRec cfg o overwrite pats entries srcP tgtP st)
    | none =>
      match (if cfg.dry_run then none else o.mkdirErr tgtP) with
      | some e => .error (e, st)
      | none =>
        .ok (hlRec cfg o overwrite pats entries srcP tgtP
          (bumpDirs (logMsg
            { st with tfs := if cfg.dry_run then st.tfs else fsMkdirParents st.tfs tgtP }
            (.createdTargetDir tgtP))))

/-! ## Derived notions used by the statements -/

/-- The engine state carried by a result, whether returned or raised. -/
def resState : Except Raised (Bool × EngineState) → EngineState
  | .ok (_, s) => s
  | .error (_, s) => s

/-- The children of a node: a directory's listing, nothing otherwise. -/
def nodeChildren : SNode → List (String × SNode)
  | .dir sub => sub
  | .file _ => []
  | .special => []

/-- All relative paths of nodes in a forest: each entry contributes its
name, and a directory additionally its descendants' relative paths. -/
def relPaths : List (String × SNode) → List FPath
  | [] => []
  | (n, node) :: rest =>
    [n] :: ((relPaths (nodeChildren node)).map (fun r => n :: r)) ++ relPaths rest
termination_by es => sizeOf es
decreasing_by
  · cases node <;> simp [nodeChildren] <;> omega
  · simp <;> omega

/-- Well-formedness of a listing as produced by a real directory walk:
sibling names are distinct, recursively. -/
def wfForest : List (String × SNode) → Bool
  | [] => true
  | (n, node) :: rest =>
    !(rest.any (fun e => e.1 == n)) && wfForest (nodeChildren node) && wfForest rest
termination_by es => sizeOf es
decreasing_by
  · cases node <;> simp [nodeChildren] <;> omega
  · simp <;> omega

/-- An environment in which the mutating primitives (`mkdir`, `os.link`,
`unlink`) always succeed; directory listing may still fail. -/
def MutFree (o : FSOracle) : Prop :=
  (∀ p, o.mkdirErr p = none) ∧ (∀ p q, o.linkErr p q = none) ∧ (∀ p, o.unlinkErr p = none)

/-- An environment in which every primitive succeeds. -/
def ErrFree (o : FSOracle) : Prop :=
  (∀ p, o.iterdirErr p = none) ∧ MutFree o

/-! ## Small path and filesystem lemmas -/

theorem pre_cancel {a b c : List String} : (a ++ b <+: a ++ c) ↔ (b <+: c) := by
  induction a with
  | nil => simp
  | cons x a ih => simpa [List.cons_prefix_cons] using ih

theorem not_append_pre_self {a : List String} {r : FPath} (hr : r ≠ []) :
    ¬ (a ++ r <+: a) := by
  intro h
  have hl := h.length_le
  rw [List.length_append] at hl
  have hz : r.length = 0 := by omega
  exact hr (List.length_eq_zero.mp hz)

theorem ancestor_mem_pre {p a : FPath} (h : a ∈ ancestorPaths p) : a <+: p := by
  unfold ancestorPaths at h
  simp at h
  obtain ⟨k, hk, rfl⟩ := h
  exact List.take_prefix _ _

theorem foldl_mkdirOne_untouched {q : FPath} :
    ∀ (as : List FPath) (T : TFS), (∀ a ∈ as, q ≠ a) →
      (as.foldl fsMkdirOne T) q = T q := by
  intro as
  induction as with
  | nil => intro T _; rfl
  | cons a as ih =>
    intro T h
    rw [List.foldl_cons, ih _ (fun x hx => h x (List.mem_cons_of_mem _ hx))]
    unfold fsMkdirOne
    rw [if_neg (h a (List.mem_cons_self _ _))]

theorem fsMkdirParents_not_pre {T : TFS} {p q : FPath} (h : ¬ q <+: p) :
    fsMkdirParents T p q = T q := by
  unfold fsMkdirParents
  exact foldl_mkdirOne_untouched _ _ (fun a ha heq => h (heq ▸ ancestor_mem_pre ha))

theorem foldl_mkdirOne_isSome {q : FPath} :
    ∀ (as : List FPath) (T : TFS), (T q).isSome →
      ((as.foldl fsMkdirOne T) q).isSome := by
  intro as
  induction as with
  | nil => intro T h; exact h
  | cons a as ih =>
    intro T h
    rw [List.foldl_cons]
    apply ih
    unfold fsMkdirOne
    split <;> simp [h]

theorem fsMkdirParents_isSome {T : TFS} {p q : FPath} (h : (T q).isSome) :
    ((fsMkdirParents T p) q).isSome :=
  foldl_mkdirOne_isSome _ _ h

theorem fsMkdirParents_self {T : TFS} {p : FPath} (hp : p ≠ []) :
    ((fsMkdirParents T p) p).isSome := by
  unfold fsMkdirParents ancestorPaths
  obtain ⟨n, hn⟩ : ∃ n, p.length = n + 1 := by
    cases hq : p with
    | nil => exact absurd hq hp
    | cons x xs => exact ⟨xs.length, by simp⟩
  rw [hn, List.range_succ, List.map_append, List.foldl_append]
  simp only [List.map_cons, List.map_nil, List.foldl_cons, List.foldl_nil]
  have ht : p.take (n + 1) = p := List.take_of_length_le (by omega)
  rw [ht]
  unfold fsMkdirOne
  simp

theorem relPaths_shape : ∀ (es : List (String × SNode)) rel, rel ∈ relPaths es →
    ∃ n r, rel = n :: r ∧ n ∈ es.map Prod.fst := by
  intro es
  induction es with
  | nil => simp [relPaths]
  | cons e rest ih =>
    obtain ⟨n, node⟩ := e
    intro rel h
    rw [relPaths] at h
    rcases List.mem_cons.mp h with h1 | h1
    · exact ⟨n, [], h1, by simp⟩
    · rcases List.mem_append.mp h1 with h2 | h2
      · obtain ⟨r, _, rfl⟩ := List.mem_map.mp h2
        exact ⟨n, r, rfl, by simp⟩
      · obtain ⟨m, r, hrel, hm⟩ := ih rel h2
        refine ⟨m, r, hrel, ?_⟩
        simp only [List.map_cons]
        exact List.mem_cons_of_mem _ hm

theorem hardlink_file_frame (cfg : Config) (o : FSOracle) (srcP : FPath)
    (id : Ident) (tgtP : FPath) (ov : Bool) (st : EngineState) {q : FPath}
    (h : q ≠ tgtP) :
    (hardlink_file cfg o srcP id tgtP ov st).2.tfs q = st.tfs q := by
  unfold hardlink_file doLink linkFail
  repeat' split
  all_goals simp [bumpSkipped, bumpErrors, bumpLinked, logMsg, fsSet, fsRemove, h]

/-! ## Concrete fixtures for witnesses and counterexamples -/

/-- An environment where every primitive succeeds. -/
def oNone : FSOracle := ⟨fun _ => none, fun _ => none, fun _ _ => none, fun _ => none⟩

theorem oNone_errFree : ErrFree oNone :=
  ⟨fun _ => rfl, fun _ => rfl, fun _ _ => rfl, fun _ => rfl⟩

/-- An empty target filesystem. -/
def tfsEmpty : TFS := fun _ => none

/-- A fresh engine state: zero counters, empty target, no trace. -/
def stEmpty : EngineState := ⟨⟨0, 0, 0, 0⟩, tfsEmpty, []⟩

/-! ## C10 -/

/-- C10: every call to `_hardlink_file` increments exactly one of the three
counters `files_linked`, `skipped`, `errors`, by exactly 1 (`dirs_created`
is never touched by it), and the call returns `True` if and only if the
incremented counter is `files_linked` or `skipped`, `False` if and only if
it is `errors`. -/
theorem c10_single_file_counters (cfg : Config) (o : FSOracle) (srcP : FPath)
    (id : Ident) (tgtP : FPath) (ov : Bool) (st : EngineState) :
    ((hardlink_file cfg o srcP id tgtP ov st).2.stats =
        { st.stats with files_linked := st.stats.files_linked + 1 } ∧
      (hardlink_file cfg o srcP id tgtP ov st).1 = true) ∨
    ((hardlink_file cfg o srcP id tgtP ov st).2.stats =
        { st.stats with skipped := st.stats.skipped + 1 } ∧
      (hardlink_file cfg o srcP id tgtP ov st).1 = true) ∨
    ((hardlink_file cfg o srcP id tgtP ov st).2.stats =
        { st.stats with errors := st.stats.errors + 1 } ∧
      (hardlink_file cfg o srcP id tgtP ov st).1 = false) := by
  unfold hardlink_file doLink linkFail
  repeat' split
  all_goals simp [bumpSkipped, bumpErrors, bumpLinked, logMsg]

/-! ## C1 -/

/-- C1: the single-file policy table of `_hardlink_file` in a real run,
when the touched mutation primitives succeed: target absent means a
hardlink is created, `files_linked` rises by 1 and the call succeeds, for
both overwrite values; an existing target with `overwrite=False` is
skipped with success; an existing target with the source's identity and
`overwrite=True` is skipped with success; an existing target with a
different identity and `overwrite=True` is removed, a hardlink is created,
`files_linked` rises by 1 and the call succeeds. -/
theorem c1_linkFile_policy (o : FSOracle) (v : Bool) (srcP : FPath)
    (id : Ident) (tgtP : FPath) (st : EngineState) :
    (st.tfs tgtP = none → o.linkErr srcP tgtP = none → ∀ ov,
      (hardlink_file ⟨v, false⟩ o srcP id tgtP ov st).1 = true ∧
      (hardlink_file ⟨v, false⟩ o srcP id tgtP ov st).2.stats =
        { st.stats with files_linked := st.stats.files_linked + 1 } ∧
      (hardlink_file ⟨v, false⟩ o srcP id tgtP ov st).2.tfs tgtP = some (.file id) ∧
      ∀ q, q ≠ tgtP → (hardlink_file ⟨v, false⟩ o srcP id tgtP ov st).2.tfs q = st.tfs q) ∧
    (∀ e, st.tfs tgtP = some e →
      (hardlink_file ⟨v, false⟩ o srcP id tgtP false st).1 = true ∧
      (hardlink_file ⟨v, false⟩ o srcP id tgtP false st).2.stats =
        { st.stats with skipped := st.stats.skipped + 1 } ∧
      (hardlink_file ⟨v, false⟩ o srcP id tgtP false st).2.tfs = st.tfs) ∧
    (st.tfs tgtP = some (.file id) →
      (hardlink_file ⟨v, false⟩ o srcP id tgtP true st).1 = true ∧
      (hardlink_file ⟨v, false⟩ o srcP id tgtP true st).2.stats =
        { st.stats with skipped := st.stats.skipped + 1 } ∧
      (hardlink_file ⟨v, false⟩ o srcP id tgtP true st).2.tfs = st.tfs) ∧
    (∀ e, st.tfs tgtP = some e → sameFile e id = false →
      o.unlinkErr tgtP = none → o.linkErr srcP tgtP = none →
      (hardlink_file ⟨v, false⟩ o srcP id tgtP true st).1 = true ∧
      (hardlink_file ⟨v, false⟩ o srcP id tgtP true st).2.stats =
        { st.stats with files_linked := st.stats.files_linked + 1 } ∧
      (hardlink_file ⟨v, false⟩ o srcP id tgtP true st).2.tfs tgtP = some (.file id) ∧
      ∀ q, q ≠ tgtP → (hardlink_file ⟨v, false⟩ o srcP id tgtP true st).2.tfs q = st.tfs q) := by
  refine ⟨?_, ?_, ?_, ?_⟩
  · intro h hl ov
    unfold hardlink_file doLink
    rw [h]
    simp [hl, bumpLinked, logMsg, fsSet]
    exact fun q hq hq2 => absurd hq2 hq
  · intro e h
    unfold hardlink_file
    rw [h]
    simp [bumpSkipped, logMsg]
  · intro h
    unfold hardlink_file
    rw [h]
    simp [sameFile, bumpSkipped, logMsg]
  · intro e h hsf hu hl
    unfold hardlink_file doLink
    rw [h]
    simp [hsf, hu, hl, bumpLinked, logMsg, fsSet, fsRemove]
    intro q hq
    simp [hq]

/-- Witness for C1: a fresh state, an absent target, a succeeding
environment; linking `s/f` to `t/f` succeeds and counts one linked file. -/
theorem c1_linkFile_policy_witness :
    (hardlink_file ⟨false, false⟩ oNone ["s", "f"] (0, 0) ["t", "f"] true stEmpty).1 = true ∧
    (hardlink_file ⟨false, false⟩ oNone ["s", "f"] (0, 0) ["t", "f"] true stEmpty).2.stats =
      ⟨1, 0, 0, 0⟩ := by
  have h := (c1_linkFile_policy oNone false ["s", "f"] (0, 0) ["t", "f"] stEmpty).1 rfl rfl true
  exact ⟨h.1, h.2.1⟩

/-! ## C5 -/

/-- C5: when the source does not exist or is not a directory, the
operation returns `False` immediately with no side effects: the target
filesystem and all four counters are unchanged (in particular `errors` is
not incremented). -/
theorem c5_precondition_failure (cfg : Config) (o : FSOracle) (src : SourceArg)
    (hsrc : src = .missing ∨ src = .nonDir)
    (srcP tgtP : FPath) (ov : Bool) (pats : List String) (st : EngineState) :
    ∃ st', hardlink_directory cfg o src srcP tgtP ov pats st = .ok (false, st') ∧
      st'.stats = st.stats ∧ st'.tfs = st.tfs := by
  rcases hsrc with rfl | rfl
  · exact ⟨_, rfl, rfl, rfl⟩
  · exact ⟨_, rfl, rfl, rfl⟩

/-- Witness for C5: a missing source against a fresh state. -/
theorem c5_precondition_failure_witness :
    ∃ st', hardlink_directory ⟨false, false⟩ oNone .missing ["s"] ["t"] false [] stEmpty =
      .ok (false, st') ∧ st'.stats = stEmpty.stats ∧ st'.tfs = stEmpty.tfs :=
  c5_precondition_failure ⟨false, false⟩ oNone .missing (Or.inl rfl) ["s"] ["t"] false [] stEmpty

/-! ## C7 -/

/-- C7: a cross-device failure of `os.link` (`OSError` with errno 18,
EXDEV) is reported with the distinct cross-device message, adds exactly 1
to `errors`, makes the single-file operation return `False`, and the
traversal continues over the remaining entries of the listing — on every
path that attempts the link: an absent target (for either overwrite
value), and an existing different-identity target under overwrite, where
the existing entry is removed first and the link then fails. -/
theorem c7_cross_device (o : FSOracle) (v : Bool) (pats : List String)
    (srcP tgtP : FPath) (n : String) (id : Ident) (rest : List (String × SNode))
    (acc : Bool) (st : EngineState)
    (hex : should_exclude (srcP ++ [n]) pats = false)
    (hx : o.linkErr (srcP ++ [n]) (tgtP ++ [n]) = some (.osErr 18)) :
    (st.tfs (tgtP ++ [n]) = none → ∀ ov,
      hardlink_file ⟨v, false⟩ o (srcP ++ [n]) id (tgtP ++ [n]) ov st =
        (false, bumpErrors (logMsg st (.crossDeviceLinkError (srcP ++ [n]) (tgtP ++ [n])))) ∧
      hlEntries ⟨v, false⟩ o ov pats ((n, .file id) :: rest) srcP tgtP acc st =
        hlEntries ⟨v, false⟩ o ov pats rest srcP tgtP false
          (bumpErrors (logMsg st (.crossDeviceLinkError (srcP ++ [n]) (tgtP ++ [n]))))) ∧
    (∀ e, st.tfs (tgtP ++ [n]) = some e → sameFile e id = false →
      o.unlinkErr (tgtP ++ [n]) = none →
      hardlink_file ⟨v, false⟩ o (srcP ++ [n]) id (tgtP ++ [n]) true st =
        (false, bumpErrors (logMsg
          (logMsg { st with tfs := fsRemove st.tfs (tgtP ++ [n]) }
            (.removedExisting (tgtP ++ [n])))
          (.crossDeviceLinkError (srcP ++ [n]) (tgtP ++ [n])))) ∧
      hlEntries ⟨v, false⟩ o true pats ((n, .file id) :: rest) srcP tgtP acc st =
        hlEntries ⟨v, false⟩ o true pats rest srcP tgtP false
          (bumpErrors (logMsg
            (logMsg { st with tfs := fsRemove st.tfs (tgtP ++ [n]) }
              (.removedExisting (tgtP ++ [n])))
            (.crossDeviceLinkError (srcP ++ [n]) (tgtP ++ [n]))))) := by
  constructor
  · intro habs ov
    have h1 : hardlink_file ⟨v, false⟩ o (srcP ++ [n]) id (tgtP ++ [n]) ov st =
        (false, bumpErrors (logMsg st (.crossDeviceLinkError (srcP ++ [n]) (tgtP ++ [n])))) := by
      unfold hardlink_file doLink linkFail
      rw [habs]
      simp [hx]
    refine ⟨h1, ?_⟩
    simp only [hlEntries, hex]
    simp [h1]
  · intro e hsome hsf hu
    have h1 : hardlink_file ⟨v, false⟩ o (srcP ++ [n]) id (tgtP ++ [n]) true st =
        (false, bumpErrors (logMsg
          (logMsg { st with tfs := fsRemove st.tfs (tgtP ++ [n]) }
            (.removedExisting (tgtP ++ [n])))
          (.crossDeviceLinkError (srcP ++ [n]) (tgtP ++ [n])))) := by
      unfold hardlink_file doLink linkFail
      rw [hsome]
      simp [hsf, hu, hx]
    refine ⟨h1, ?_⟩
    simp only [hlEntries, hex]
    simp [h1]

/-- A cross-device environment: every `os.link` raises EXDEV. -/
def oXdev : FSOracle := ⟨fun _ => none, fun _ => none, fun _ _ => some (.osErr 18), fun _ => none⟩

/-- A target state whose entry `t/f` is a file of a different identity
than the source file. -/
def stDiffT : EngineState :=
  ⟨⟨0, 0, 0, 0⟩, fun q => if q = ["t", "f"] then some (.file (9, 9)) else none, []⟩

/-- Witness for C7: linking one file across devices fails with the
cross-device diagnostic and one counted error — once with an absent
target, and once on the overwrite remove-then-link path over an existing
different-identity target. -/
theorem c7_cross_device_witness :
    (hardlink_file ⟨false, false⟩ oXdev (["s"] ++ ["f"]) (0, 0) (["t"] ++ ["f"]) true stEmpty =
       (false, bumpErrors (logMsg stEmpty
         (.crossDeviceLinkError (["s"] ++ ["f"]) (["t"] ++ ["f"])))) ∧
     hlEntries ⟨false, false⟩ oXdev true [] [("f", .file (0, 0))] ["s"] ["t"] true stEmpty =
       hlEntries ⟨false, false⟩ oXdev true [] [] ["s"] ["t"] false
         (bumpErrors (logMsg stEmpty
           (.crossDeviceLinkError (["s"] ++ ["f"]) (["t"] ++ ["f"]))))) ∧
    (hardlink_file ⟨false, false⟩ oXdev (["s"] ++ ["f"]) (0, 0) (["t"] ++ ["f"]) true stDiffT =
       (false, bumpErrors (logMsg
         (logMsg { stDiffT with tfs := fsRemove stDiffT.tfs (["t"] ++ ["f"]) }
           (.removedExisting (["t"] ++ ["f"])))
         (.crossDeviceLinkError (["s"] ++ ["f"]) (["t"] ++ ["f"])))) ∧
     hlEntries ⟨false, false⟩ oXdev true [] [("f", .file (0, 0))] ["s"] ["t"] true stDiffT =
       hlEntries ⟨false, false⟩ oXdev true [] [] ["s"] ["t"] false
         (bumpErrors (logMsg
           (logMsg { stDiffT with tfs := fsRemove stDiffT.tfs (["t"] ++ ["f"]) }
             (.removedExisting (["t"] ++ ["f"])))
           (.crossDeviceLinkError (["s"] ++ ["f"]) (["t"] ++ ["f"]))))) :=
  ⟨(c7_cross_device oXdev false [] ["s"] ["t"] "f" (0, 0) [] true stEmpty rfl rfl).1
     rfl true,
   (c7_cross_device oXdev false [] ["s"] ["t"] "f" (0, 0) [] true stDiffT rfl rfl).2
     (.file (9, 9)) (by simp [stDiffT]) (by decide) rfl⟩

/-! ## C6 -/

/-- C6: with a nonempty pattern list, an entry is excluded exactly when
some pattern glob-matches its full path string or its name alone; an
excluded entry adds exactly 1 to `skipped` and the walk moves directly to
the remaining entries, never descending into the excluded node (whatever
it is), so nothing beneath it is visited, linked or counted. -/
theorem c6_exclusion (pats : List String) (hne : pats ≠ []) (p : FPath) :
    (should_exclude p pats = true ↔
      ∃ pat ∈ pats, fnmatch (pathStr p) pat = true ∨ fnmatch (pathName p) pat = true) ∧
    ∀ (cfg : Config) (o : FSOracle) (ov : Bool) (srcP tgtP : FPath) (n : String)
      (node : SNode) (rest : List (String × SNode)) (acc : Bool) (st : EngineState),
      should_exclude (srcP ++ [n]) pats = true →
      hlEntries cfg o ov pats ((n, node) :: rest) srcP tgtP acc st =
        hlEntries cfg o ov pats rest srcP tgtP acc
          (bumpSkipped (logMsg st (.excluding (srcP ++ [n])))) := by
  constructor
  · simp [should_exclude]
  · intro cfg o ov srcP tgtP n node rest acc st hexcl
    rw [hlEntries.eq_def]
    simp [hexcl]

/-- Witness for C6: the pattern list `["*.tmp"]` excludes `s/b.tmp` by
name, and an excluded file is skipped without processing. -/
theorem c6_exclusion_witness :
    (should_exclude ["s", "b.tmp"] ["*.tmp"] = true ↔
      ∃ pat ∈ ["*.tmp"], fnmatch (pathStr ["s", "b.tmp"]) pat = true ∨
        fnmatch (pathName ["s", "b.tmp"]) pat = true) ∧
    hlEntries ⟨false, false⟩ oNone false ["*.tmp"]
        [("b.tmp", .file (0, 0))] ["s"] ["t"] true stEmpty =
      hlEntries ⟨false, false⟩ oNone false ["*.tmp"] [] ["s"] ["t"] true
        (bumpSkipped (logMsg stEmpty (.excluding (["s"] ++ ["b.tmp"])))) := by
  have h := c6_exclusion ["*.tmp"] (by simp) (["s"] ++ ["b.tmp"])
  refine ⟨h.1, ?_⟩
  refine h.2 ⟨false, false⟩ oNone false ["s"] ["t"] "b.tmp" (.file (0, 0)) [] true stEmpty ?_
  simp [should_exclude, pathName, fnmatch, translateToks, gmatch, classScanBody, classScan,
    findClose, classItems, inCls]


/-! ## C8: dry-run performs no filesystem mutation -/

theorem dirStep_exists {st : EngineState} {p : FPath} {e : TEntry}
    (cfg : Config) (o : FSOracle) (h : st.tfs p = some e) :
    dirStep cfg o p st = .ok st := by
  unfold dirStep
  rw [h]

theorem dirStep_dry_absent {st : EngineState} {p : FPath} (v : Bool) (o : FSOracle)
    (h : st.tfs p = none) :
    dirStep ⟨v, true⟩ o p st = .ok (bumpDirs (logMsg st (.createdDir p))) := by
  unfold dirStep
  rw [h]
  rfl

theorem dirStep_real_absent {st : EngineState} {p : FPath} (v : Bool) (o : FSOracle)
    (h : st.tfs p = none) (hmk : o.mkdirErr p = none) :
    dirStep ⟨v, false⟩ o p st =
      .ok (bumpDirs (logMsg { st with tfs := fsMkdirParents st.tfs p }
        (.createdDir p))) := by
  unfold dirStep
  rw [h]
  simp [hmk]

theorem dirStep_real_raise {st : EngineState} {p : FPath} {e : PyErr} (v : Bool)
    (o : FSOracle) (h : st.tfs p = none) (hmk : o.mkdirErr p = some e) :
    dirStep ⟨v, false⟩ o p st = .error (e, st) := by
  unfold dirStep
  rw [h]
  simp [hmk]

theorem hardlink_file_dry_tfs (v : Bool) (o : FSOracle) (srcP : FPath) (id : Ident)
    (tgtP : FPath) (ov : Bool) (st : EngineState) :
    (hardlink_file ⟨v, true⟩ o srcP id tgtP ov st).2.tfs = st.tfs := by
  unfold hardlink_file doLink linkFail
  repeat' split
  all_goals simp_all [bumpSkipped, bumpErrors, bumpLinked, logMsg]

/-- Under dry-run the traversal loop raises no exception and never touches
the target filesystem. -/
theorem hlEntries_dry (v : Bool) (o : FSOracle) (ov : Bool) (pats : List String) :
    ∀ (es : List (String × SNode)) (srcP tgtP : FPath) (acc : Bool) (st : EngineState),
    ∃ b st', hlEntries ⟨v, true⟩ o ov pats es srcP tgtP acc st = .ok (b, st') ∧
      st'.tfs = st.tfs
  | [], srcP, tgtP, acc, st => ⟨acc, st, by simp only [hlEntries], rfl⟩
  | (n, node) :: rest, srcP, tgtP, acc, st => by
    by_cases hex : should_exclude (srcP ++ [n]) pats = true
    · obtain ⟨b, st', heq, htfs⟩ := hlEntries_dry v o ov pats rest srcP tgtP acc
        (bumpSkipped (logMsg st (.excluding (srcP ++ [n]))))
      refine ⟨b, st', ?_, htfs⟩
      rw [hlEntries.eq_def]
      simp [hex]
      exact heq
    · cases node with
      | file id =>
        obtain ⟨b, st', heq, htfs⟩ := hlEntries_dry v o ov pats rest srcP tgtP
          (acc && (hardlink_file ⟨v, true⟩ o (srcP ++ [n]) id (tgtP ++ [n]) ov st).1)
          (hardlink_file ⟨v, true⟩ o (srcP ++ [n]) id (tgtP ++ [n]) ov st).2
        refine ⟨b, st', ?_, htfs.trans (hardlink_file_dry_tfs v o (srcP ++ [n]) id (tgtP ++ [n]) ov st)⟩
        rw [hlEntries.eq_def]
        simp [hex]
        exact heq
      | special =>
        obtain ⟨b, st', heq, htfs⟩ := hlEntries_dry v o ov pats rest srcP tgtP acc
          (bumpSkipped (logMsg st (.skippingSpecial (srcP ++ [n]))))
        refine ⟨b, st', ?_, htfs⟩
        rw [hlEntries.eq_def]
        simp [hex]
        exact heq
      | dir sub =>
        cases hT : st.tfs (tgtP ++ [n]) with
        | some e0 =>
          cases hit : o.iterdirErr (srcP ++ [n]) with
          | some e =>
            obtain ⟨b, st', heq, htfs⟩ := hlEntries_dry v o ov pats rest srcP tgtP
              false (listErrState e st)
            refine ⟨b, st', ?_, htfs⟩
            rw [hlEntries.eq_def]
            simp [hex, dirStep_exists _ o hT, hit]
            exact heq
          | none =>
            obtain ⟨bs, s1, heqs, htfss⟩ := hlEntries_dry v o ov pats sub (srcP ++ [n])
              (tgtP ++ [n]) true st
            obtain ⟨b, st', heq, htfs⟩ := hlEntries_dry v o ov pats rest srcP tgtP
              (acc && bs) s1
            refine ⟨b, st', ?_, htfs.trans htfss⟩
            rw [hlEntries.eq_def]
            simp [hex, dirStep_exists _ o hT, hit, heqs, wrapRec]
            exact heq
        | none =>
          cases hit : o.iterdirErr (srcP ++ [n]) with
          | some e =>
            obtain ⟨b, st', heq, htfs⟩ := hlEntries_dry v o ov pats rest srcP tgtP
              false (listErrState e (bumpDirs (logMsg st (.createdDir (tgtP ++ [n])))))
            refine ⟨b, st', ?_, htfs⟩
            rw [hlEntries.eq_def]
            simp [hex, dirStep_dry_absent v o hT, hit]
            exact heq
          | none =>
            obtain ⟨bs, s1, heqs, htfss⟩ := hlEntries_dry v o ov pats sub (srcP ++ [n])
              (tgtP ++ [n]) true (bumpDirs (logMsg st (.createdDir (tgtP ++ [n]))))
            obtain ⟨b, st', heq, htfs⟩ := hlEntries_dry v o ov pats rest srcP tgtP
              (acc && bs) s1
            refine ⟨b, st', ?_, htfs.trans htfss⟩
            rw [hlEntries.eq_def]
            simp [hex, dirStep_dry_absent v o hT, hit, heqs, wrapRec]
            exact heq
termination_by es => sizeOf es

theorem hlRec_dry (v : Bool) (o : FSOracle) (ov : Bool) (pats : List String)
    (entries : List (String × SNode)) (srcP tgtP : FPath) (st : EngineState) :
    (hlRec ⟨v, true⟩ o ov pats entries srcP tgtP st).2.tfs = st.tfs := by
  unfold hlRec
  cases hit : o.iterdirErr srcP with
  | some e => simp [listErrState, bumpErrors, logMsg]
  | none =>
    obtain ⟨b, st', heq, htfs⟩ := hlEntries_dry v o ov pats entries srcP tgtP true st
    simp [heq, wrapRec, htfs]

/-- C8: with the dry-run flag set the engine performs no mutating
filesystem call: for every input it returns normally (no `mkdir` can
raise, since none is attempted) and the target filesystem state
afterwards is exactly what it was before the invocation, for any tree and
any combination of the other flags. -/
theorem c8_dry_run_no_mutation (v : Bool) (o : FSOracle) (src : SourceArg)
    (srcP tgtP : FPath) (ov : Bool) (pats : List String) (st : EngineState) :
    ∃ b st', hardlink_directory ⟨v, true⟩ o src srcP tgtP ov pats st = .ok (b, st') ∧
      st'.tfs = st.tfs := by
  cases src with
  | missing => exact ⟨false, _, rfl, rfl⟩
  | nonDir => exact ⟨false, _, rfl, rfl⟩
  | dir entries =>
    cases hT : st.tfs tgtP with
    | some e =>
      refine ⟨(hlRec ⟨v, true⟩ o ov pats entries srcP tgtP st).1,
              (hlRec ⟨v, true⟩ o ov pats entries srcP tgtP st).2, ?_,
              hlRec_dry v o ov pats entries srcP tgtP st⟩
      unfold hardlink_directory
      rw [hT]
    | none =>
      refine ⟨(hlRec ⟨v, true⟩ o ov pats entries srcP tgtP
                (bumpDirs (logMsg st (.createdTargetDir tgtP)))).1,
              (hlRec ⟨v, true⟩ o ov pats entries srcP tgtP
                (bumpDirs (logMsg st (.createdTargetDir tgtP)))).2, ?_,
              hlRec_dry v o ov pats entries srcP tgtP
                (bumpDirs (logMsg st (.createdTargetDir tgtP)))⟩
      unfold hardlink_directory
      rw [hT]
      rfl

/-! ## C9 -/

/-- An environment whose `mkdir` always raises `PermissionError`. -/
def oMkdirFail : FSOracle :=
  ⟨fun _ => none, fun _ => some (.osErr 13), fun _ _ => none, fun _ => none⟩

/-- C9 counterexample: with the target root absent and its `mkdir` raising
(line 57 is outside every `try`), the exception escapes
`hardlink_directory` to the caller instead of being converted into
statistics — the caller does not receive a boolean. -/
theorem c9_counterexample :
    hardlink_directory ⟨false, false⟩ oMkdirFail (.dir [("f", .file (0, 0))])
      ["s"] ["t"] false [] stEmpty = .error (.osErr 13, stEmpty) := rfl

/-- C9 (amended): every per-item error during traversal is caught inside
the engine and converted into a statistics update plus a diagnostic — the
traversal loop and the per-file operation always return values — and
`hardlink_directory` returns the aggregate boolean normally in every case
except one: when the target root is missing, dry-run is off, and the
initial `mkdir` of the target root raises, that exception escapes to the
caller. -/
theorem c9_amended (cfg : Config) (o : FSOracle) (src : SourceArg)
    (srcP tgtP : FPath) (ov : Bool) (pats : List String) (st : EngineState)
    (h : st.tfs tgtP ≠ none ∨ cfg.dry_run = true ∨ o.mkdirErr tgtP = none) :
    ∃ b st', hardlink_directory cfg o src srcP tgtP ov pats st = .ok (b, st') := by
  cases src with
  | missing => exact ⟨false, _, rfl⟩
  | nonDir => exact ⟨false, _, rfl⟩
  | dir entries =>
    cases hT : st.tfs tgtP with
    | some e =>
      refine ⟨(hlRec cfg o ov pats entries srcP tgtP st).1,
              (hlRec cfg o ov pats entries srcP tgtP st).2, ?_⟩
      unfold hardlink_directory
      rw [hT]
    | none =>
      have hmk : (if cfg.dry_run then none else o.mkdirErr tgtP) = none := by
        rcases h with h1 | h2 | h3
        · exact absurd hT h1
        · rw [h2]; rfl
        · rw [h3]; simp
      refine ⟨(hlRec cfg o ov pats entries srcP tgtP
          (bumpDirs (logMsg { st with tfs := if cfg.dry_run then st.tfs
                                             else fsMkdirParents st.tfs tgtP }
            (.createdTargetDir tgtP)))).1,
        (hlRec cfg o ov pats entries srcP tgtP
          (bumpDirs (logMsg { st with tfs := if cfg.dry_run then st.tfs
                                             else fsMkdirParents st.tfs tgtP }
            (.createdTargetDir tgtP)))).2, ?_⟩
      unfold hardlink_directory
      rw [hT, hmk]

/-- Witness for the amended C9: a succeeding environment returns the
boolean normally. -/
theorem c9_amended_witness :
    ∃ b st', hardlink_directory ⟨false, false⟩ oNone (.dir [("f", .file (0, 0))])
      ["s"] ["t"] false [] stEmpty = .ok (b, st') :=
  c9_amended ⟨false, false⟩ oNone (.dir [("f", .file (0, 0))]) ["s"] ["t"] false []
    stEmpty (Or.inr (Or.inr rfl))

/-! ## C4: the aggregate boolean is the AND across the walk -/

/-- The running success flag only ANDs onto the final result: a run started
with accumulator `acc` equals the run started with `true` with `acc` ANDed
onto the returned boolean, with identical state and identical raise
behavior. -/
theorem hlEntries_acc (cfg : Config) (o : FSOracle) (ov : Bool) (pats : List String) :
    ∀ (es : List (String × SNode)) (srcP tgtP : FPath) (acc : Bool) (st : EngineState),
    hlEntries cfg o ov pats es srcP tgtP acc st =
      match hlEntries cfg o ov pats es srcP tgtP true st with
      | .ok (b, s) => .ok (acc && b, s)
      | .error e => .error e
  | [], srcP, tgtP, acc, st => by
    simp only [hlEntries]
    simp
  | (n, node) :: rest, srcP, tgtP, acc, st => by
    by_cases hex : should_exclude (srcP ++ [n]) pats = true
    · rw [hlEntries.eq_def]
      conv_rhs => rw [hlEntries.eq_def]
      simp only [hex, if_true, ite_true, eq_self_iff_true]
      exact hlEntries_acc cfg o ov pats rest srcP tgtP acc _
    · cases node with
      | file id =>
        rw [hlEntries.eq_def]
        conv_rhs => rw [hlEntries.eq_def]
        simp only [hex, if_false, ite_false, Bool.true_and]
        rw [hlEntries_acc cfg o ov pats rest srcP tgtP
              (acc && (hardlink_file cfg o (srcP ++ [n]) id (tgtP ++ [n]) ov st).1)
              (hardlink_file cfg o (srcP ++ [n]) id (tgtP ++ [n]) ov st).2,
            hlEntries_acc cfg o ov pats rest srcP tgtP
              (hardlink_file cfg o (srcP ++ [n]) id (tgtP ++ [n]) ov st).1
              (hardlink_file cfg o (srcP ++ [n]) id (tgtP ++ [n]) ov st).2]
        cases hlEntries cfg o ov pats rest srcP tgtP true
            (hardlink_file cfg o (srcP ++ [n]) id (tgtP ++ [n]) ov st).2 with
        | ok bs => obtain ⟨b, s⟩ := bs; simp [Bool.and_assoc]
        | error e => simp
      | special =>
        rw [hlEntries.eq_def]
        conv_rhs => rw [hlEntries.eq_def]
        simp only [hex, if_false, ite_false]
        exact hlEntries_acc cfg o ov pats rest srcP tgtP acc _
      | dir sub =>
        rw [hlEntries.eq_def]
        conv_rhs => rw [hlEntries.eq_def]
        simp only [hex, if_false, ite_false]
        cases hds : dirStep cfg o (tgtP ++ [n]) st with
        | error e => simp [hds]
        | ok st1 =>
          simp only [hds]
          cases hit : o.iterdirErr (srcP ++ [n]) with
          | some e =>
            simp only [hit, Bool.true_and]
            rw [hlEntries_acc cfg o ov pats rest srcP tgtP (acc && false)
                  (listErrState e st1),
                hlEntries_acc cfg o ov pats rest srcP tgtP false (listErrState e st1)]
            cases hlEntries cfg o ov pats rest srcP tgtP true (listErrState e st1) with
            | ok bs => obtain ⟨b, s⟩ := bs; simp [Bool.and_assoc]
            | error e2 => simp
          | none =>
            cases hsub : hlEntries cfg o ov pats sub (srcP ++ [n]) (tgtP ++ [n]) true st1 with
            | ok bs =>
              obtain ⟨bsb, bss⟩ := bs
              simp only [hit, hsub, wrapRec, Bool.true_and]
              rw [hlEntries_acc cfg o ov pats rest srcP tgtP (acc && bsb) bss,
                  hlEntries_acc cfg o ov pats rest srcP tgtP bsb bss]
              cases hlEntries cfg o ov pats rest srcP tgtP true bss with
              | ok bs2 => obtain ⟨b, s⟩ := bs2; simp [Bool.and_assoc]
              | error e2 => simp
            | error ee =>
              obtain ⟨e2, s2⟩ := ee
              simp only [hit, hsub, wrapRec, Bool.true_and]
              rw [hlEntries_acc cfg o ov pats rest srcP tgtP (acc && false)
                    (listErrState e2 s2),
                  hlEntries_acc cfg o ov pats rest srcP tgtP false (listErrState e2 s2)]
              cases hlEntries cfg o ov pats rest srcP tgtP true (listErrState e2 s2) with
              | ok bs2 => obtain ⟨b, s⟩ := bs2; simp [Bool.and_assoc]
              | error e3 => simp
termination_by es => sizeOf es

/-- Splitting a listing: when the first part of a listing returns normally
with boolean `b1`, the walk of the whole listing continues with the second
part from the reached state — whatever `b1` was — and ANDs the results.
A failure inside the first part (boolean `false`) therefore never stops
the traversal of the remainder. -/
theorem hlEntries_append (cfg : Config) (o : FSOracle) (ov : Bool) (pats : List String) :
    ∀ (es1 es2 : List (String × SNode)) (srcP tgtP : FPath)
      (acc : Bool) (st : EngineState) (b1 : Bool) (st1 : EngineState),
    hlEntries cfg o ov pats es1 srcP tgtP acc st = .ok (b1, st1) →
    hlEntries cfg o ov pats (es1 ++ es2) srcP tgtP acc st =
      match hlEntries cfg o ov pats es2 srcP tgtP true st1 with
      | .ok (b2, s) => .ok (b1 && b2, s)
      | .error e => .error e
  | [], es2, srcP, tgtP, acc, st, b1, st1 => by
    intro h
    simp only [hlEntries] at h
    cases h
    simpa using hlEntries_acc cfg o ov pats es2 srcP tgtP acc st
  | (n, node) :: rest, es2, srcP, tgtP, acc, st, b1, st1 => by
    intro h
    rw [hlEntries.eq_def] at h
    rw [List.cons_append, hlEntries.eq_def]
    by_cases hex : should_exclude (srcP ++ [n]) pats = true
    · simp only [hex, if_true, ite_true] at h ⊢
      exact hlEntries_append cfg o ov pats rest es2 srcP tgtP acc _ b1 st1 h
    · simp only [hex, if_false, ite_false] at h ⊢
      cases node with
      | file id =>
        exact hlEntries_append cfg o ov pats rest es2 srcP tgtP _ _ b1 st1 h
      | special =>
        exact hlEntries_append cfg o ov pats rest es2 srcP tgtP acc _ b1 st1 h
      | dir sub =>
        cases hds : dirStep cfg o (tgtP ++ [n]) st with
        | error e =>
          rw [hds] at h
          simp at h
        | ok st2 =>
          rw [hds] at h
          exact hlEntries_append cfg o ov pats rest es2 srcP tgtP _ _ b1 st1 h
termination_by es1 => sizeOf es1

/-- A state whose target root `t` already exists as a directory. -/
def stRootT : EngineState :=
  ⟨⟨0, 0, 0, 0⟩, fun q => if q = ["t"] then some .dir else none, []⟩

/-- C4 counterexample: the listing holds a directory `d` (whose target
`mkdir` raises, e.g. permission denied) followed by a file `f`.  The
exception aborts the loop at that directory level: the run reports one
error and links nothing — although the same file in the same environment
links fine when it is reached — so the sibling after the failing item was
never visited, against the claim that traversal always continues. -/
theorem c4_counterexample :
    Except.map (fun x => (x.1, x.2.stats))
      (hardlink_directory ⟨false, false⟩ oMkdirFail
        (.dir [("d", .dir []), ("f", .file (0, 0))]) ["s"] ["t"] false [] stRootT) =
      .ok (false, ⟨0, 0, 1, 0⟩) ∧
    Except.map (fun x => (x.1, x.2.stats))
      (hardlink_directory ⟨false, false⟩ oMkdirFail
        (.dir [("f", .file (0, 0))]) ["s"] ["t"] false [] stRootT) =
      .ok (true, ⟨1, 0, 0, 0⟩) := by
  constructor <;>
    simp [hardlink_directory, hlRec, hlEntries, hardlink_file, doLink, linkFail,
      should_exclude, dirStep, wrapRec, listErrState, isPermissionErr, oMkdirFail,
      stRootT, bumpDirs, bumpErrors, bumpLinked, bumpSkipped, logMsg, fsSet, Except.map]

/-- C4 (amended): the overall result is the logical AND across the walk,
and a per-item failure that is *returned* as a boolean never stops
traversal: the running flag only ANDs onto the final result, and after a
first part of a listing returns normally — whatever its boolean — the
walk always continues into the remaining entries from the reached state.
(An *exception* raised while creating a target subdirectory or listing a
directory, by contrast, aborts the remaining entries of that directory
level, with one error counted; see the counterexample.) -/
theorem c4_and_failsoft (cfg : Config) (o : FSOracle) (ov : Bool) (pats : List String)
    (es es1 es2 : List (String × SNode)) (srcP tgtP : FPath) (acc : Bool)
    (st : EngineState) (b1 : Bool) (st1 : EngineState) :
    (hlEntries cfg o ov pats es srcP tgtP acc st =
      match hlEntries cfg o ov pats es srcP tgtP true st with
      | .ok (b, s) => .ok (acc && b, s)
      | .error e => .error e) ∧
    (hlEntries cfg o ov pats es1 srcP tgtP acc st = .ok (b1, st1) →
      hlEntries cfg o ov pats (es1 ++ es2) srcP tgtP acc st =
        match hlEntries cfg o ov pats es2 srcP tgtP true st1 with
        | .ok (b2, s) => .ok (b1 && b2, s)
        | .error e => .error e) :=
  ⟨hlEntries_acc cfg o ov pats es srcP tgtP acc st,
   hlEntries_append cfg o ov pats es1 es2 srcP tgtP acc st b1 st1⟩

/-- Witness for the amended C4: a file that fails with a cross-device
error (result `false`) is followed by a further entry that the walk still
visits, and the booleans AND. -/
theorem c4_and_failsoft_witness :
    hlEntries ⟨false, false⟩ oXdev false [] ([("f", .file (0, 0))] ++ [("y", .special)])
        ["s"] ["t"] true stRootT =
      match hlEntries ⟨false, false⟩ oXdev false [] [("y", .special)] ["s"] ["t"] true
          (bumpErrors (logMsg stRootT
            (.crossDeviceLinkError (["s"] ++ ["f"]) (["t"] ++ ["f"])))) with
      | .ok (b2, s) => .ok (false && b2, s)
      | .error e => .error e :=
  (c4_and_failsoft ⟨false, false⟩ oXdev false [] [] [("f", .file (0, 0))]
      [("y", .special)] ["s"] ["t"] true stRootT false
      (bumpErrors (logMsg stRootT
        (.crossDeviceLinkError (["s"] ++ ["f"]) (["t"] ++ ["f"]))))).2
    (by simp [hlEntries, hardlink_file, doLink, linkFail, oXdev, stRootT,
          should_exclude, bumpErrors, logMsg])

/-! ## Frame lemmas: the walk only writes under the paths it visits -/

/-- The state carried by a `dirStep` result. -/
def raisedState : Except Raised EngineState → EngineState
  | .ok s => s
  | .error (_, s) => s

theorem wrapRec_tfs (res : Except Raised (Bool × EngineState)) :
    (wrapRec res).2.tfs = (resState res).tfs := by
  cases res with
  | ok bs => rfl
  | error es =>
    obtain ⟨e, s⟩ := es
    simp [wrapRec, resState, listErrState, bumpErrors, logMsg]

theorem dirStep_frame (cfg : Config) (o : FSOracle) (p : FPath) (st : EngineState)
    {q : FPath} (h : ¬ q <+: p) :
    (raisedState (dirStep cfg o p st)).tfs q = st.tfs q := by
  unfold dirStep
  cases hT : st.tfs p with
  | some e => simp [raisedState]
  | none =>
    cases hmk : (if cfg.dry_run then none else o.mkdirErr p) with
    | some e => simp [raisedState]
    | none =>
      simp only [raisedState, bumpDirs, logMsg]
      split
      · rfl
      · exact fsMkdirParents_not_pre h

theorem append_cons_eq (a : List String) (n : String) (r : List String) :
    (a ++ [n]) ++ r = a ++ n :: r := by simp

theorem pre_cons_head {a : List String} {m n : String} {r x : List String}
    (h : a ++ m :: r <+: a ++ n :: x) : m = n :=
  (List.cons_prefix_cons.mp (pre_cancel.mp h)).1

theorem append_cancel {a b c : List String} (h : a ++ b = a ++ c) : b = c := by
  induction a with
  | nil => exact h
  | cons x a ih => exact ih (by injection h)

theorem relPaths_mem_head (n : String) (node : SNode) (rest : List (String × SNode)) :
    [n] ∈ relPaths ((n, node) :: rest) := by
  rw [relPaths]
  exact List.mem_cons_self _ _

theorem relPaths_mem_sub {sub : List (String × SNode)} {rel : FPath}
    (n : String) (rest : List (String × SNode)) (h : rel ∈ relPaths sub) :
    n :: rel ∈ relPaths ((n, .dir sub) :: rest) := by
  rw [relPaths]
  refine List.mem_cons_of_mem _ (List.mem_append.mpr (Or.inl ?_))
  simp only [nodeChildren]
  exact List.mem_map.mpr ⟨rel, h, rfl⟩

theorem relPaths_mem_rest {rest : List (String × SNode)} {rel : FPath}
    (n : String) (node : SNode) (h : rel ∈ relPaths rest) :
    rel ∈ relPaths ((n, node) :: rest) := by
  rw [relPaths]
  exact List.mem_cons_of_mem _ (List.mem_append.mpr (Or.inr h))

/-- Unpacking well-formedness of a cons cell. -/
theorem wf_cons {n : String} {node : SNode} {rest : List (String × SNode)}
    (h : wfForest ((n, node) :: rest) = true) :
    (∀ e ∈ rest, e.1 ≠ n) ∧ wfForest (nodeChildren node) = true ∧
      wfForest rest = true := by
  rw [wfForest] at h
  simp only [Bool.and_eq_true, Bool.not_eq_true', List.any_eq_false] at h
  obtain ⟨⟨h1, h2⟩, h3⟩ := h
  exact ⟨fun e he => by simpa using h1 e he, h2, h3⟩

/-- A rest-path starts with a name different from the head entry's. -/
theorem relPaths_rest_head {n : String} {node : SNode} {rest : List (String × SNode)}
    (hwf : wfForest ((n, node) :: rest) = true) {rel : FPath}
    (hrel : rel ∈ relPaths rest) : ∃ m r, rel = m :: r ∧ m ≠ n := by
  obtain ⟨m, r, rfl, hm⟩ := relPaths_shape rest _ hrel
  obtain ⟨e, he, he1⟩ := List.mem_map.mp hm
  exact ⟨m, r, rfl, he1 ▸ (wf_cons hwf).1 e he⟩

/-! ### One-step unfolding equations for the loop -/

theorem hlEntries_cons_excl (cfg : Config) (o : FSOracle) (ov : Bool)
    (pats : List String) {n : String} (node : SNode) (rest : List (String × SNode))
    (srcP tgtP : FPath) (acc : Bool) (st : EngineState)
    (hex : should_exclude (srcP ++ [n]) pats = true) :
    hlEntries cfg o ov pats ((n, node) :: rest) srcP tgtP acc st =
      hlEntries cfg o ov pats rest srcP tgtP acc
        (bumpSkipped (logMsg st (.excluding (srcP ++ [n])))) := by
  rw [hlEntries.eq_def]
  simp [hex]

theorem hlEntries_cons_file (cfg : Config) (o : FSOracle) (ov : Bool)
    (pats : List String) {n : String} (id : Ident) (rest : List (String × SNode))
    (srcP tgtP : FPath) (acc : Bool) (st : EngineState)
    (hex : should_exclude (srcP ++ [n]) pats = false) :
    hlEntries cfg o ov pats ((n, .file id) :: rest) srcP tgtP acc st =
      hlEntries cfg o ov pats rest srcP tgtP
        (acc && (hardlink_file cfg o (srcP ++ [n]) id (tgtP ++ [n]) ov st).1)
        (hardlink_file cfg o (srcP ++ [n]) id (tgtP ++ [n]) ov st).2 := by
  rw [hlEntries.eq_def]
  simp [hex]

theorem hlEntries_cons_special (cfg : Config) (o : FSOracle) (ov : Bool)
    (pats : List String) {n : String} (rest : List (String × SNode))
    (srcP tgtP : FPath) (acc : Bool) (st : EngineState)
    (hex : should_exclude (srcP ++ [n]) pats = false) :
    hlEntries cfg o ov pats ((n, .special) :: rest) srcP tgtP acc st =
      hlEntries cfg o ov pats rest srcP tgtP acc
        (bumpSkipped (logMsg st (.skippingSpecial (srcP ++ [n])))) := by
  rw [hlEntries.eq_def]
  simp [hex]

theorem hlEntries_cons_dir_raise (cfg : Config) (o : FSOracle) (ov : Bool)
    (pats : List String) {n : String} (sub rest : List (String × SNode))
    (srcP tgtP : FPath) (acc : Bool) (st : EngineState) {e : PyErr} {s1 : EngineState}
    (hex : should_exclude (srcP ++ [n]) pats = false)
    (hds : dirStep cfg o (tgtP ++ [n]) st = .error (e, s1)) :
    hlEntries cfg o ov pats ((n, .dir sub) :: rest) srcP tgtP acc st =
      .error (e, s1) := by
  rw [hlEntries.eq_def]
  simp [hex, hds]

theorem hlEntries_cons_dir_listErr (cfg : Config) (o : FSOracle) (ov : Bool)
    (pats : List String) {n : String} (sub rest : List (String × SNode))
    (srcP tgtP : FPath) (acc : Bool) (st : EngineState) {st1 : EngineState} {e : PyErr}
    (hex : should_exclude (srcP ++ [n]) pats = false)
    (hds : dirStep cfg o (tgtP ++ [n]) st = .ok st1)
    (hit : o.iterdirErr (srcP ++ [n]) = some e) :
    hlEntries cfg o ov pats ((n, .dir sub) :: rest) srcP tgtP acc st =
      hlEntries cfg o ov pats rest srcP tgtP false (listErrState e st1) := by
  rw [hlEntries.eq_def]
  simp [hex, hds, hit]

theorem hlEntries_cons_dir_run (cfg : Config) (o : FSOracle) (ov : Bool)
    (pats : List String) {n : String} (sub rest : List (String × SNode))
    (srcP tgtP : FPath) (acc : Bool) (st : EngineState) {st1 : EngineState}
    (hex : should_exclude (srcP ++ [n]) pats = false)
    (hds : dirStep cfg o (tgtP ++ [n]) st = .ok st1)
    (hit : o.iterdirErr (srcP ++ [n]) = none) :
    hlEntries cfg o ov pats ((n, .dir sub) :: rest) srcP tgtP acc st =
      hlEntries cfg o ov pats rest srcP tgtP
        (acc && (wrapRec (hlEntries cfg o ov pats sub (srcP ++ [n]) (tgtP ++ [n]) true st1)).1)
        (wrapRec (hlEntries cfg o ov pats sub (srcP ++ [n]) (tgtP ++ [n]) true st1)).2 := by
  rw [hlEntries.eq_def]
  simp [hex, hds, hit]

/-- The walk of a listing changes the target filesystem only at paths that
are prefixes of the target-side images of the listing's relative paths
(this covers the exact file paths, the created directories, and the
ancestors that `mkdir(parents=True)` may create). -/
theorem hlEntries_frame (cfg : Config) (o : FSOracle) (ov : Bool) (pats : List String) :
    ∀ (es : List (String × SNode)) (srcP tgtP : FPath) (acc : Bool) (st : EngineState)
      (q : FPath), (∀ rel ∈ relPaths es, ¬ q <+: tgtP ++ rel) →
    (resState (hlEntries cfg o ov pats es srcP tgtP acc st)).tfs q = st.tfs q
  | [], srcP, tgtP, acc, st, q => by
    intro _
    simp only [hlEntries, resState]
  | (n, node) :: rest, srcP, tgtP, acc, st, q => by
    intro hq
    have hqn : ¬ q <+: tgtP ++ [n] := hq [n] (relPaths_mem_head n node rest)
    have hqrest : ∀ rel ∈ relPaths rest, ¬ q <+: tgtP ++ rel :=
      fun rel hrel => hq rel (relPaths_mem_rest n node hrel)
    by_cases hex : should_exclude (srcP ++ [n]) pats = true
    · rw [hlEntries_cons_excl cfg o ov pats node rest srcP tgtP acc st hex]
      exact hlEntries_frame cfg o ov pats rest srcP tgtP acc _ q hqrest
    · rw [Bool.not_eq_true] at hex
      cases node with
      | file id =>
        rw [hlEntries_cons_file cfg o ov pats id rest srcP tgtP acc st hex]
        rw [hlEntries_frame cfg o ov pats rest srcP tgtP _ _ q hqrest]
        exact hardlink_file_frame cfg o (srcP ++ [n]) id (tgtP ++ [n]) ov st
          (fun heq => hqn (heq ▸ List.prefix_refl q))
      | special =>
        rw [hlEntries_cons_special cfg o ov pats rest srcP tgtP acc st hex]
        exact hlEntries_frame cfg o ov pats rest srcP tgtP acc _ q hqrest
      | dir sub =>
        have hqsub : ∀ rel ∈ relPaths sub, ¬ q <+: (tgtP ++ [n]) ++ rel := by
          intro rel hrel
          rw [append_cons_eq]
          exact hq (n :: rel) (relPaths_mem_sub n rest hrel)
        cases hds : dirStep cfg o (tgtP ++ [n]) st with
        | error es2 =>
          obtain ⟨e2, s2⟩ := es2
          rw [hlEntries_cons_dir_raise cfg o ov pats sub rest srcP tgtP acc st hex hds]
          have := dirStep_frame cfg o (tgtP ++ [n]) st hqn
          rw [hds] at this
          simpa [resState, raisedState] using this
        | ok st1 =>
          have hst1 : st1.tfs q = st.tfs q := by
            have := dirStep_frame cfg o (tgtP ++ [n]) st hqn
            rwa [hds] at this
          cases hit : o.iterdirErr (srcP ++ [n]) with
          | some e =>
            rw [hlEntries_cons_dir_listErr cfg o ov pats sub rest srcP tgtP acc st hex hds hit]
            rw [hlEntries_frame cfg o ov pats rest srcP tgtP _ _ q hqrest]
            simpa [listErrState, bumpErrors, logMsg] using hst1
          | none =>
            rw [hlEntries_cons_dir_run cfg o ov pats sub rest srcP tgtP acc st hex hds hit]
            rw [hlEntries_frame cfg o ov pats rest srcP tgtP _ _ q hqrest]
            rw [wrapRec_tfs]
            rw [hlEntries_frame cfg o ov pats sub (srcP ++ [n]) (tgtP ++ [n]) true st1 q hqsub]
            exact hst1
termination_by es => sizeOf es

/-! ## C2: dry-run versus real-run statistics -/

/-- Any path examined later for a sibling is untouched by everything the
head entry's subtree can write (well-formed listings have distinct
sibling names). -/
theorem rest_lookup_indep {n : String} {node : SNode} {rest : List (String × SNode)}
    (hwf : wfForest ((n, node) :: rest) = true) {rel : FPath} (hrel : rel ∈ relPaths rest)
    (tgtP : FPath) : ∀ rel2, ¬ (tgtP ++ rel <+: (tgtP ++ [n]) ++ rel2) := by
  intro rel2 hpre
  obtain ⟨m, r, rfl, hm⟩ := relPaths_rest_head hwf hrel
  rw [append_cons_eq] at hpre
  exact hm (pre_cons_head hpre)

theorem rest_ne_head {n : String} {node : SNode} {rest : List (String × SNode)}
    (hwf : wfForest ((n, node) :: rest) = true) {rel : FPath} (hrel : rel ∈ relPaths rest)
    (tgtP : FPath) : ¬ (tgtP ++ rel <+: tgtP ++ [n]) := by
  have h := rest_lookup_indep hwf hrel tgtP []
  simpa using h

/-- A single-file operation behaves identically, in returned boolean and
statistics, in a real run and in a dry run started from states with equal
statistics and an equal target entry at the examined path — in an
environment where `os.link` and `unlink` succeed. -/
theorem hardlink_file_sim (o : FSOracle) (hl : ∀ p q, o.linkErr p q = none)
    (hu : ∀ p, o.unlinkErr p = none) (v v' : Bool) (srcP : FPath) (id : Ident)
    (tgtP : FPath) (ov : Bool) (str std : EngineState)
    (hstats : str.stats = std.stats) (hT : str.tfs tgtP = std.tfs tgtP) :
    (hardlink_file ⟨v, false⟩ o srcP id tgtP ov str).1 =
      (hardlink_file ⟨v', true⟩ o srcP id tgtP ov std).1 ∧
    (hardlink_file ⟨v, false⟩ o srcP id tgtP ov str).2.stats =
      (hardlink_file ⟨v', true⟩ o srcP id tgtP ov std).2.stats := by
  unfold hardlink_file doLink
  rw [hT]
  cases hv : std.tfs tgtP with
  | none =>
    simp [hl, bumpLinked, logMsg, hstats]
  | some e =>
    by_cases hov : ov
    · by_cases hsf : sameFile e id
      · simp [hov, hsf, bumpSkipped, logMsg, hstats]
      · simp [hov, hsf, hu, hl, bumpLinked, logMsg, hstats]
    · simp [hov, bumpSkipped, logMsg, hstats]

/-- Dry-run and real-run walks of the same well-formed listing from
states with equal statistics and agreeing target entries at every path
the walk can examine return the same boolean and equal statistics, when
the mutating primitives succeed; the dry run leaves its filesystem
untouched. -/
theorem hlEntries_sim (o : FSOracle) (hmf : MutFree o) (v v' ov : Bool) (pats : List String) :
    ∀ (es : List (String × SNode)) (srcP tgtP : FPath) (acc : Bool)
      (str std : EngineState),
    wfForest es = true →
    str.stats = std.stats →
    (∀ rel ∈ relPaths es, str.tfs (tgtP ++ rel) = std.tfs (tgtP ++ rel)) →
    ∃ b sr sd,
      hlEntries ⟨v, false⟩ o ov pats es srcP tgtP acc str = .ok (b, sr) ∧
      hlEntries ⟨v', true⟩ o ov pats es srcP tgtP acc std = .ok (b, sd) ∧
      sr.stats = sd.stats ∧ sd.tfs = std.tfs
  | [], srcP, tgtP, acc, str, std => by
    intro hwf hstats hag
    exact ⟨acc, str, std, by simp only [hlEntries], by simp only [hlEntries], hstats, rfl⟩
  | (n, node) :: rest, srcP, tgtP, acc, str, std => by
    intro hwf hstats hag
    obtain ⟨hdist, hwfch, hwfrest⟩ := wf_cons hwf
    have hagrest : ∀ rel ∈ relPaths rest, str.tfs (tgtP ++ rel) = std.tfs (tgtP ++ rel) :=
      fun rel hrel => hag rel (relPaths_mem_rest n node hrel)
    by_cases hex : should_exclude (srcP ++ [n]) pats = true
    · obtain ⟨b, sr, sd, e1, e2, hs, ht⟩ := hlEntries_sim o hmf v v' ov pats rest srcP tgtP acc
        (bumpSkipped (logMsg str (.excluding (srcP ++ [n]))))
        (bumpSkipped (logMsg std (.excluding (srcP ++ [n]))))
        hwfrest (by simp [bumpSkipped, logMsg, hstats]) hagrest
      exact ⟨b, sr, sd,
        by rw [hlEntries_cons_excl _ o ov pats node rest srcP tgtP acc str hex]; exact e1,
        by rw [hlEntries_cons_excl _ o ov pats node rest srcP tgtP acc std hex]; exact e2,
        hs, ht.trans rfl⟩
    · rw [Bool.not_eq_true] at hex
      cases node with
      | file id =>
        have hTeq : str.tfs (tgtP ++ [n]) = std.tfs (tgtP ++ [n]) :=
          hag [n] (relPaths_mem_head n (.file id) rest)
        have hsim := hardlink_file_sim o hmf.2.1 hmf.2.2 v v' (srcP ++ [n]) id
          (tgtP ++ [n]) ov str std hstats hTeq
        have hagrest2 : ∀ rel ∈ relPaths rest,
            (hardlink_file ⟨v, false⟩ o (srcP ++ [n]) id (tgtP ++ [n]) ov str).2.tfs (tgtP ++ rel) =
            (hardlink_file ⟨v', true⟩ o (srcP ++ [n]) id (tgtP ++ [n]) ov std).2.tfs (tgtP ++ rel) := by
          intro rel hrel
          rw [hardlink_file_dry_tfs]
          rw [hardlink_file_frame _ o (srcP ++ [n]) id (tgtP ++ [n]) ov str
            (fun heq => rest_ne_head hwf hrel tgtP (heq ▸ List.prefix_refl _))]
          exact hagrest rel hrel
        obtain ⟨b, sr, sd, e1, e2, hs, ht⟩ := hlEntries_sim o hmf v v' ov pats rest srcP tgtP
          (acc && (hardlink_file ⟨v, false⟩ o (srcP ++ [n]) id (tgtP ++ [n]) ov str).1)
          (hardlink_file ⟨v, false⟩ o (srcP ++ [n]) id (tgtP ++ [n]) ov str).2
          (hardlink_file ⟨v', true⟩ o (srcP ++ [n]) id (tgtP ++ [n]) ov std).2
          hwfrest hsim.2 hagrest2
        refine ⟨b, sr, sd, ?_, ?_, hs,
          ht.trans (hardlink_file_dry_tfs v' o (srcP ++ [n]) id (tgtP ++ [n]) ov std)⟩
        · rw [hlEntries_cons_file _ o ov pats id rest srcP tgtP acc str hex]
          exact e1
        · rw [hlEntries_cons_file _ o ov pats id rest srcP tgtP acc std hex, ← hsim.1]
          exact e2
      | special =>
        obtain ⟨b, sr, sd, e1, e2, hs, ht⟩ := hlEntries_sim o hmf v v' ov pats rest srcP tgtP acc
          (bumpSkipped (logMsg str (.skippingSpecial (srcP ++ [n]))))
          (bumpSkipped (logMsg std (.skippingSpecial (srcP ++ [n]))))
          hwfrest (by simp [bumpSkipped, logMsg, hstats]) hagrest
        exact ⟨b, sr, sd,
          by rw [hlEntries_cons_special _ o ov pats rest srcP tgtP acc str hex]; exact e1,
          by rw [hlEntries_cons_special _ o ov pats rest srcP tgtP acc std hex]; exact e2,
          hs, ht.trans rfl⟩
      | dir sub =>
        have hwfsub : wfForest sub = true := hwfch
        have hTeq : str.tfs (tgtP ++ [n]) = std.tfs (tgtP ++ [n]) :=
          hag [n] (relPaths_mem_head n (.dir sub) rest)
        have hagsub0 : ∀ rel ∈ relPaths sub,
            str.tfs ((tgtP ++ [n]) ++ rel) = std.tfs ((tgtP ++ [n]) ++ rel) := by
          intro rel hrel
          rw [append_cons_eq]
          exact hag (n :: rel) (relPaths_mem_sub n rest hrel)
        cases hv : std.tfs (tgtP ++ [n]) with
        | some e0 =>
          have hvr : str.tfs (tgtP ++ [n]) = some e0 := hTeq.trans hv
          have hdsr := dirStep_exists ⟨v, false⟩ o hvr
          have hdsd := dirStep_exists ⟨v', true⟩ o hv
          cases hit : o.iterdirErr (srcP ++ [n]) with
          | some e =>
            obtain ⟨b, sr, sd, e1, e2, hs, ht⟩ := hlEntries_sim o hmf v v' ov pats rest srcP tgtP
              false (listErrState e str) (listErrState e std)
              hwfrest (by simp [listErrState, bumpErrors, logMsg, hstats]) hagrest
            exact ⟨b, sr, sd,
              by rw [hlEntries_cons_dir_listErr _ o ov pats sub rest srcP tgtP acc str hex hdsr hit]; exact e1,
              by rw [hlEntries_cons_dir_listErr _ o ov pats sub rest srcP tgtP acc std hex hdsd hit]; exact e2,
              hs, ht.trans rfl⟩
          | none =>
            obtain ⟨bs, srs, sds, es1, es2, hss, hts⟩ := hlEntries_sim o hmf v v' ov pats sub
              (srcP ++ [n]) (tgtP ++ [n]) true str std hwfsub hstats hagsub0
            have hagrest2 : ∀ rel ∈ relPaths rest,
                srs.tfs (tgtP ++ rel) = sds.tfs (tgtP ++ rel) := by
              intro rel hrel
              have hfr := hlEntries_frame ⟨v, false⟩ o ov pats sub (srcP ++ [n]) (tgtP ++ [n])
                true str (tgtP ++ rel) (fun rel2 h2 => rest_lookup_indep hwf hrel tgtP rel2)
              rw [es1] at hfr
              simp only [resState] at hfr
              rw [hfr, hts]
              exact hagrest rel hrel
            obtain ⟨b, sr, sd, e1, e2, hs, ht⟩ := hlEntries_sim o hmf v v' ov pats rest srcP tgtP
              (acc && bs) srs sds hwfrest hss hagrest2
            refine ⟨b, sr, sd, ?_, ?_, hs, ht.trans (hts.trans rfl)⟩
            · rw [hlEntries_cons_dir_run _ o ov pats sub rest srcP tgtP acc str hex hdsr hit, es1]
              exact e1
            · rw [hlEntries_cons_dir_run _ o ov pats sub rest srcP tgtP acc std hex hdsd hit, es2]
              exact e2
        | none =>
          have hvr : str.tfs (tgtP ++ [n]) = none := hTeq.trans hv
          have hdsr := dirStep_real_absent v o hvr (hmf.1 (tgtP ++ [n]))
          have hdsd := dirStep_dry_absent v' o hv
          have hmkfr : ∀ rel ∈ relPaths rest,
              fsMkdirParents str.tfs (tgtP ++ [n]) (tgtP ++ rel) = str.tfs (tgtP ++ rel) :=
            fun rel hrel => fsMkdirParents_not_pre (rest_ne_head hwf hrel tgtP)
          cases hit : o.iterdirErr (srcP ++ [n]) with
          | some e =>
            obtain ⟨b, sr, sd, e1, e2, hs, ht⟩ := hlEntries_sim o hmf v v' ov pats rest srcP tgtP
              false
              (listErrState e (bumpDirs (logMsg
                { str with tfs := fsMkdirParents str.tfs (tgtP ++ [n]) } (.createdDir (tgtP ++ [n])))))
              (listErrState e (bumpDirs (logMsg std (.createdDir (tgtP ++ [n])))))
              hwfrest (by simp [listErrState, bumpErrors, bumpDirs, logMsg, hstats])
              (by
                intro rel hrel
                show fsMkdirParents str.tfs (tgtP ++ [n]) (tgtP ++ rel) = std.tfs (tgtP ++ rel)
                rw [hmkfr rel hrel]
                exact hagrest rel hrel)
            exact ⟨b, sr, sd,
              by rw [hlEntries_cons_dir_listErr _ o ov pats sub rest srcP tgtP acc str hex hdsr hit]; exact e1,
              by rw [hlEntries_cons_dir_listErr _ o ov pats sub rest srcP tgtP acc std hex hdsd hit]; exact e2,
              hs, ht.trans rfl⟩
          | none =>
            obtain ⟨bs, srs, sds, es1, es2, hss, hts⟩ := hlEntries_sim o hmf v v' ov pats sub
              (srcP ++ [n]) (tgtP ++ [n]) true
              (bumpDirs (logMsg
                { str with tfs := fsMkdirParents str.tfs (tgtP ++ [n]) } (.createdDir (tgtP ++ [n]))))
              (bumpDirs (logMsg std (.createdDir (tgtP ++ [n]))))
              hwfsub (by simp [bumpDirs, logMsg, hstats])
              (by
                intro rel hrel
                obtain ⟨m, r, rfl, -⟩ := relPaths_shape sub rel hrel
                show fsMkdirParents str.tfs (tgtP ++ [n]) ((tgtP ++ [n]) ++ m :: r) =
                  std.tfs ((tgtP ++ [n]) ++ m :: r)
                rw [fsMkdirParents_not_pre (not_append_pre_self (by simp))]
                exact hagsub0 (m :: r) hrel)
            have hagrest2 : ∀ rel ∈ relPaths rest,
                srs.tfs (tgtP ++ rel) = sds.tfs (tgtP ++ rel) := by
              intro rel hrel
              have hfr := hlEntries_frame ⟨v, false⟩ o ov pats sub (srcP ++ [n]) (tgtP ++ [n])
                true (bumpDirs (logMsg
                  { str with tfs := fsMkdirParents str.tfs (tgtP ++ [n]) } (.createdDir (tgtP ++ [n]))))
                (tgtP ++ rel) (fun rel2 h2 => rest_lookup_indep hwf hrel tgtP rel2)
              rw [es1] at hfr
              simp only [resState] at hfr
              rw [hfr]
              show fsMkdirParents str.tfs (tgtP ++ [n]) (tgtP ++ rel) = sds.tfs (tgtP ++ rel)
              rw [hmkfr rel hrel, hts]
              exact hagrest rel hrel
            obtain ⟨b, sr, sd, e1, e2, hs, ht⟩ := hlEntries_sim o hmf v v' ov pats rest srcP tgtP
              (acc && bs) srs sds hwfrest hss hagrest2
            refine ⟨b, sr, sd, ?_, ?_, hs, ht.trans (hts.trans rfl)⟩
            · rw [hlEntries_cons_dir_run _ o ov pats sub rest srcP tgtP acc str hex hdsr hit, es1]
              exact e1
            · rw [hlEntries_cons_dir_run _ o ov pats sub rest srcP tgtP acc std hex hdsd hit, es2]
              exact e2
termination_by es => sizeOf es

/-! ### Step equations for `hlRec` and `hardlink_directory` -/

theorem hlRec_listErr (cfg : Config) (o : FSOracle) (ov : Bool) (pats : List String)
    (entries : List (String × SNode)) (srcP tgtP : FPath) (st : EngineState) {e : PyErr}
    (hit : o.iterdirErr srcP = some e) :
    hlRec cfg o ov pats entries srcP tgtP st = (false, listErrState e st) := by
  unfold hlRec
  rw [hit]

theorem hlRec_run (cfg : Config) (o : FSOracle) (ov : Bool) (pats : List String)
    (entries : List (String × SNode)) (srcP tgtP : FPath) (st : EngineState)
    {b : Bool} {s : EngineState} (hit : o.iterdirErr srcP = none)
    (hrun : hlEntries cfg o ov pats entries srcP tgtP true st = .ok (b, s)) :
    hlRec cfg o ov pats entries srcP tgtP st = (b, s) := by
  unfold hlRec
  rw [hit, hrun]
  rfl

theorem hardlink_directory_existing (cfg : Config) (o : FSOracle)
    (entries : List (String × SNode)) (srcP tgtP : FPath) (ov : Bool)
    (pats : List String) (st : EngineState) {e : TEntry} (hT : st.tfs tgtP = some e) :
    hardlink_directory cfg o (.dir entries) srcP tgtP ov pats st =
      .ok (hlRec cfg o ov pats entries srcP tgtP st) := by
  unfold hardlink_directory
  rw [hT]

theorem hardlink_directory_absent_real (v : Bool) (o : FSOracle)
    (entries : List (String × SNode)) (srcP tgtP : FPath) (ov : Bool)
    (pats : List String) (st : EngineState) (hT : st.tfs tgtP = none)
    (hmk : o.mkdirErr tgtP = none) :
    hardlink_directory ⟨v, false⟩ o (.dir entries) srcP tgtP ov pats st =
      .ok (hlRec ⟨v, false⟩ o ov pats entries srcP tgtP
        (bumpDirs (logMsg { st with tfs := fsMkdirParents st.tfs tgtP }
          (.createdTargetDir tgtP)))) := by
  unfold hardlink_directory
  rw [hT]
  simp [hmk]

theorem hardlink_directory_absent_dry (v : Bool) (o : FSOracle)
    (entries : List (String × SNode)) (srcP tgtP : FPath) (ov : Bool)
    (pats : List String) (st : EngineState) (hT : st.tfs tgtP = none) :
    hardlink_directory ⟨v, true⟩ o (.dir entries) srcP tgtP ov pats st =
      .ok (hlRec ⟨v, true⟩ o ov pats entries srcP tgtP
        (bumpDirs (logMsg st (.createdTargetDir tgtP)))) := by
  unfold hardlink_directory
  rw [hT]
  rfl

/-- C2 counterexample: one source file, source and target on different
devices (`os.link` raises EXDEV).  The real run counts one error and links
nothing; the dry run, which never calls `os.link`, counts the file as
linked — the four counters differ. -/
theorem c2_counterexample :
    Except.map (fun x => x.2.stats)
      (hardlink_directory ⟨false, false⟩ oXdev (.dir [("f", .file (0, 0))])
        ["s"] ["t"] false [] stEmpty) = .ok ⟨0, 1, 1, 0⟩ ∧
    Except.map (fun x => x.2.stats)
      (hardlink_directory ⟨false, true⟩ oXdev (.dir [("f", .file (0, 0))])
        ["s"] ["t"] false [] stEmpty) = .ok ⟨1, 1, 0, 0⟩ ∧
    (⟨0, 1, 1, 0⟩ : Stats) ≠ ⟨1, 1, 0, 0⟩ := by
  refine ⟨?_, ?_, by decide⟩ <;>
    simp [hardlink_directory, hlRec, hlEntries, hardlink_file, doLink, linkFail,
      should_exclude, dirStep, wrapRec, listErrState, oXdev, stEmpty, tfsEmpty,
      fsMkdirParents, ancestorPaths, fsMkdirOne, bumpDirs, bumpErrors, bumpLinked,
      bumpSkipped, logMsg, fsSet, Except.map, List.range_succ]

/-- C2 (amended): for every well-formed source tree, target state and
policy flags, in an environment where the mutating primitives (`mkdir`,
`os.link`, `unlink`) succeed, a dry run and a real run from the same
untouched source/target pair return the same boolean and numerically
identical statistics (all four counters), and the dry run leaves the
target filesystem unchanged.  (Directory listing may still fail: it fails
identically in both runs.  When a mutating primitive fails, the counters
genuinely diverge, since dry-run never attempts the mutation — see the
counterexample.) -/
theorem c2_dry_real_equiv (o : FSOracle) (hmf : MutFree o) (v v' ov : Bool)
    (pats : List String) (entries : List (String × SNode)) (srcP tgtP : FPath)
    (st : EngineState) (hwf : wfForest entries = true) :
    ∃ b sr sd,
      hardlink_directory ⟨v, false⟩ o (.dir entries) srcP tgtP ov pats st = .ok (b, sr) ∧
      hardlink_directory ⟨v', true⟩ o (.dir entries) srcP tgtP ov pats st = .ok (b, sd) ∧
      sr.stats = sd.stats ∧ sd.tfs = st.tfs := by
  cases hT : st.tfs tgtP with
  | some e =>
    rw [hardlink_directory_existing ⟨v, false⟩ o entries srcP tgtP ov pats st hT,
        hardlink_directory_existing ⟨v', true⟩ o entries srcP tgtP ov pats st hT]
    cases hit : o.iterdirErr srcP with
    | some e2 =>
      rw [hlRec_listErr ⟨v, false⟩ o ov pats entries srcP tgtP st hit,
          hlRec_listErr ⟨v', true⟩ o ov pats entries srcP tgtP st hit]
      exact ⟨false, _, _, rfl, rfl, rfl, rfl⟩
    | none =>
      obtain ⟨b, sr, sd, e1, e2, hs, ht⟩ := hlEntries_sim o hmf v v' ov pats entries
        srcP tgtP true st st hwf rfl (fun _ _ => rfl)
      rw [hlRec_run ⟨v, false⟩ o ov pats entries srcP tgtP st hit e1,
          hlRec_run ⟨v', true⟩ o ov pats entries srcP tgtP st hit e2]
      exact ⟨b, sr, sd, rfl, rfl, hs, ht⟩
  | none =>
    rw [hardlink_directory_absent_real v o entries srcP tgtP ov pats st hT (hmf.1 tgtP),
        hardlink_directory_absent_dry v' o entries srcP tgtP ov pats st hT]
    cases hit : o.iterdirErr srcP with
    | some e2 =>
      rw [hlRec_listErr _ o ov pats entries srcP tgtP _ hit,
          hlRec_listErr _ o ov pats entries srcP tgtP _ hit]
      refine ⟨false, _, _, rfl, rfl, ?_, ?_⟩
      · simp [listErrState, bumpErrors, bumpDirs, logMsg]
      · rfl
    | none =>
      obtain ⟨b, sr, sd, e1, e2, hs, ht⟩ := hlEntries_sim o hmf v v' ov pats entries
        srcP tgtP true
        (bumpDirs (logMsg { st with tfs := fsMkdirParents st.tfs tgtP }
          (.createdTargetDir tgtP)))
        (bumpDirs (logMsg st (.createdTargetDir tgtP)))
        hwf (by simp [bumpDirs, logMsg])
        (by
          intro rel hrel
          obtain ⟨m, r, rfl, -⟩ := relPaths_shape entries rel hrel
          show fsMkdirParents st.tfs tgtP (tgtP ++ m :: r) = st.tfs (tgtP ++ m :: r)
          exact fsMkdirParents_not_pre (not_append_pre_self (by simp)))
      rw [hlRec_run _ o ov pats entries srcP tgtP _ hit e1,
          hlRec_run _ o ov pats entries srcP tgtP _ hit e2]
      exact ⟨b, sr, sd, rfl, rfl, hs, ht.trans rfl⟩

/-- Witness for the amended C2: a one-file tree in a succeeding
environment gives the same boolean and the same counters dry and real. -/
theorem c2_dry_real_equiv_witness :
    ∃ b sr sd,
      hardlink_directory ⟨false, false⟩ oNone (.dir [("f", .file (0, 0))])
        ["s"] ["t"] false [] stEmpty = .ok (b, sr) ∧
      hardlink_directory ⟨false, true⟩ oNone (.dir [("f", .file (0, 0))])
        ["s"] ["t"] false [] stEmpty = .ok (b, sd) ∧
      sr.stats = sd.stats ∧ sd.tfs = stEmpty.tfs :=
  c2_dry_real_equiv oNone oNone_errFree.2 false false false [] [("f", .file (0, 0))]
    ["s"] ["t"] stEmpty (by simp [wfForest, nodeChildren])

/-! ## C3: idempotence of a second run with overwrite -/

/-- 1 for entries the walk settles by a single skip-or-link (files,
specials, excluded entries), 0 for directories (which add their
contents). -/
def nodeLeafCount : SNode → Nat
  | .dir _ => 0
  | .file _ => 1
  | .special => 1

/-- Number of skip-or-link decisions a walk of the listing makes. -/
def entryCount (pats : List String) : List (String × SNode) → FPath → Nat
  | [], _ => 0
  | (n, node) :: rest, srcP =>
    (if should_exclude (srcP ++ [n]) pats then 1
     else nodeLeafCount node + entryCount pats (nodeChildren node) (srcP ++ [n]))
    + entryCount pats rest srcP
termination_by es => sizeOf es
decreasing_by
  · cases node <;> simp [nodeChildren] <;> omega
  · simp <;> omega

/-- What a visited entry guarantees in the target after a successful
overwrite run: `some id` for a regular file, `none` (presence only) for a
directory. -/
def nodeMirrorHead : SNode → List (Option Ident)
  | .file id => [some id]
  | .dir _ => [none]
  | .special => []

/-- The target-relative paths a walk will have mirrored, with the file
identities. -/
def mirroredPaths (pats : List String) : List (String × SNode) → FPath →
    List (FPath × Option Ident)
  | [], _ => []
  | (n, node) :: rest, srcP =>
    (if should_exclude (srcP ++ [n]) pats then []
     else (nodeMirrorHead node).map (fun oid => ([n], oid)) ++
       (mirroredPaths pats (nodeChildren node) (srcP ++ [n])).map
         (fun pr => (n :: pr.1, pr.2)))
    ++ mirroredPaths pats rest srcP
termination_by es => sizeOf es
decreasing_by
  · cases node <;> simp [nodeChildren] <;> omega
  · simp <;> omega

/-- The mirroring invariant: every recorded file path names the source
file's identity, every recorded directory path names something. -/
def MirroredOk (T : TFS) (tgtP : FPath) (l : List (FPath × Option Ident)) : Prop :=
  ∀ pr ∈ l, (∀ id, pr.2 = some id → T (tgtP ++ pr.1) = some (.file id)) ∧
    (pr.2 = none → (T (tgtP ++ pr.1)).isSome = true)

theorem mirroredOk_append {T : TFS} {tgtP : FPath} {a b : List (FPath × Option Ident)} :
    MirroredOk T tgtP (a ++ b) ↔ MirroredOk T tgtP a ∧ MirroredOk T tgtP b := by
  unfold MirroredOk
  constructor
  · intro h
    exact ⟨fun pr hpr => h pr (List.mem_append.mpr (Or.inl hpr)),
           fun pr hpr => h pr (List.mem_append.mpr (Or.inr hpr))⟩
  · intro h pr hpr
    rcases List.mem_append.mp hpr with h1 | h1
    · exact h.1 pr h1
    · exact h.2 pr h1

theorem mirroredOk_map {T : TFS} {tgtP : FPath} {n : String}
    {l : List (FPath × Option Ident)} :
    MirroredOk T tgtP (l.map (fun pr => (n :: pr.1, pr.2))) ↔
      MirroredOk T (tgtP ++ [n]) l := by
  unfold MirroredOk
  constructor
  · intro h pr hpr
    have := h (n :: pr.1, pr.2) (List.mem_map.mpr ⟨pr, hpr, rfl⟩)
    rw [append_cons_eq]
    exact this
  · intro h pr hpr
    obtain ⟨pr0, hpr0, rfl⟩ := List.mem_map.mp hpr
    have := h pr0 hpr0
    dsimp only
    rw [← append_cons_eq]
    exact this

theorem mirroredOk_congr {T T' : TFS} {tgtP : FPath} {l : List (FPath × Option Ident)}
    (heq : ∀ pr ∈ l, T' (tgtP ++ pr.1) = T (tgtP ++ pr.1))
    (h : MirroredOk T tgtP l) : MirroredOk T' tgtP l := by
  intro pr hpr
  obtain ⟨h1, h2⟩ := h pr hpr
  rw [heq pr hpr] at *
  exact ⟨h1, h2⟩

theorem head_not_pre_rest {n : String} {node : SNode} {rest : List (String × SNode)}
    (hwf : wfForest ((n, node) :: rest) = true) {rel : FPath}
    (hrel : rel ∈ relPaths rest) (tgtP : FPath) (x : FPath) :
    ¬ (tgtP ++ n :: x <+: tgtP ++ rel) := by
  obtain ⟨m, r, rfl, hm⟩ := relPaths_rest_head hwf hrel
  intro hpre
  exact hm (pre_cons_head hpre).symm

/-- `_hardlink_file` with overwrite in a succeeding environment: success,
and afterwards the target path names the source identity. -/
theorem hardlink_file_post (o : FSOracle) (hl : ∀ p q, o.linkErr p q = none)
    (hu : ∀ p, o.unlinkErr p = none) (v : Bool) (srcP : FPath) (id : Ident)
    (tgtP : FPath) (st : EngineState) :
    (hardlink_file ⟨v, false⟩ o srcP id tgtP true st).1 = true ∧
    (hardlink_file ⟨v, false⟩ o srcP id tgtP true st).2.tfs tgtP = some (.file id) := by
  unfold hardlink_file doLink
  cases hv : st.tfs tgtP with
  | none => simp [hl, bumpLinked, logMsg, fsSet]
  | some e =>
    by_cases hsf : sameFile e id = true
    · cases e with
      | dir => simp [sameFile] at hsf
      | file i =>
        have : i = id := by simpa [sameFile] using hsf
        subst this
        simp [hsf, bumpSkipped, logMsg, hv]
    · rw [Bool.not_eq_true] at hsf
      simp [hsf, hu, hl, bumpLinked, logMsg, fsSet]

theorem hardlink_file_isSome (o : FSOracle) (hl : ∀ p q, o.linkErr p q = none)
    (hu : ∀ p, o.unlinkErr p = none) (v : Bool) (srcP : FPath) (id : Ident)
    (tgtP : FPath) (st : EngineState) (q : FPath)
    (h : (st.tfs q).isSome = true) :
    ((hardlink_file ⟨v, false⟩ o srcP id tgtP true st).2.tfs q).isSome = true := by
  by_cases hq : q = tgtP
  · subst hq
    rw [(hardlink_file_post o hl hu v srcP id q st).2]
    rfl
  · rw [hardlink_file_frame _ o srcP id tgtP true st hq]
    exact h

/-- A real overwrite walk in an environment whose mutating primitives
succeed never erases a target entry: anything present stays present. -/
theorem hlEntries_isSome (o : FSOracle) (hmf : MutFree o) (v : Bool) (pats : List String) :
    ∀ (es : List (String × SNode)) (srcP tgtP : FPath) (acc : Bool) (st : EngineState)
      (q : FPath), (st.tfs q).isSome = true →
    ((resState (hlEntries ⟨v, false⟩ o true pats es srcP tgtP acc st)).tfs q).isSome = true
  | [], srcP, tgtP, acc, st, q => by
    intro h
    simpa only [hlEntries, resState] using h
  | (n, node) :: rest, srcP, tgtP, acc, st, q => by
    intro h
    by_cases hex : should_exclude (srcP ++ [n]) pats = true
    · rw [hlEntries_cons_excl _ o true pats node rest srcP tgtP acc st hex]
      exact hlEntries_isSome o hmf v pats rest srcP tgtP acc _ q h
    · rw [Bool.not_eq_true] at hex
      cases node with
      | file id =>
        rw [hlEntries_cons_file _ o true pats id rest srcP tgtP acc st hex]
        exact hlEntries_isSome o hmf v pats rest srcP tgtP _ _ q
          (hardlink_file_isSome o hmf.2.1 hmf.2.2 v (srcP ++ [n]) id (tgtP ++ [n]) st q h)
      | special =>
        rw [hlEntries_cons_special _ o true pats rest srcP tgtP acc st hex]
        exact hlEntries_isSome o hmf v pats rest srcP tgtP acc _ q h
      | dir sub =>
        cases hT : st.tfs (tgtP ++ [n]) with
        | some e0 =>
          have hds := dirStep_exists ⟨v, false⟩ o hT
          cases hit : o.iterdirErr (srcP ++ [n]) with
          | some e =>
            rw [hlEntries_cons_dir_listErr _ o true pats sub rest srcP tgtP acc st hex hds hit]
            exact hlEntries_isSome o hmf v pats rest srcP tgtP _ _ q h
          | none =>
            rw [hlEntries_cons_dir_run _ o true pats sub rest srcP tgtP acc st hex hds hit]
            refine hlEntries_isSome o hmf v pats rest srcP tgtP _ _ q ?_
            rw [wrapRec_tfs]
            exact hlEntries_isSome o hmf v pats sub (srcP ++ [n]) (tgtP ++ [n]) true st q h
        | none =>
          have hds := dirStep_real_absent v o hT (hmf.1 (tgtP ++ [n]))
          have hmid : (((bumpDirs (logMsg
              { st with tfs := fsMkdirParents st.tfs (tgtP ++ [n]) }
              (.createdDir (tgtP ++ [n])))) : EngineState).tfs q).isSome = true :=
            fsMkdirParents_isSome h
          cases hit : o.iterdirErr (srcP ++ [n]) with
          | some e =>
            rw [hlEntries_cons_dir_listErr _ o true pats sub rest srcP tgtP acc st hex hds hit]
            exact hlEntries_isSome o hmf v pats rest srcP tgtP _ _ q hmid
          | none =>
            rw [hlEntries_cons_dir_run _ o true pats sub rest srcP tgtP acc st hex hds hit]
            refine hlEntries_isSome o hmf v pats rest srcP tgtP _ _ q ?_
            rw [wrapRec_tfs]
            exact hlEntries_isSome o hmf v pats sub (srcP ++ [n]) (tgtP ++ [n]) true _ q hmid
termination_by es => sizeOf es

theorem mirroredOk_cons {T : TFS} {tgtP : FPath} {x : FPath × Option Ident}
    {l : List (FPath × Option Ident)} :
    MirroredOk T tgtP (x :: l) ↔
      ((∀ id, x.2 = some id → T (tgtP ++ x.1) = some (.file id)) ∧
       (x.2 = none → (T (tgtP ++ x.1)).isSome = true)) ∧ MirroredOk T tgtP l := by
  unfold MirroredOk
  rw [List.forall_mem_cons]

/-- A single overwrite link operation in a succeeding environment adds
exactly 1 to `files_linked + skipped`. -/
theorem hardlink_file_sum (o : FSOracle) (hl : ∀ p q, o.linkErr p q = none)
    (hu : ∀ p, o.unlinkErr p = none) (v : Bool) (srcP : FPath) (id : Ident)
    (tgtP : FPath) (st : EngineState) :
    (hardlink_file ⟨v, false⟩ o srcP id tgtP true st).2.stats.files_linked +
      (hardlink_file ⟨v, false⟩ o srcP id tgtP true st).2.stats.skipped =
      st.stats.files_linked + st.stats.skipped + 1 := by
  unfold hardlink_file doLink
  cases hv : st.tfs tgtP with
  | none =>
    simp [hl, bumpLinked, logMsg]
    omega
  | some e =>
    by_cases hsf : sameFile e id = true
    · simp [hsf, bumpSkipped, logMsg]
      omega
    · rw [Bool.not_eq_true] at hsf
      simp [hsf, hu, hl, bumpLinked, logMsg]
      omega

/-- First run with overwrite in a succeeding environment: the walk
returns its accumulator unchanged (success), adds one skip-or-link per
counted entry, and afterwards every visited file path names its source
identity and every visited directory path names something. -/
theorem hlEntries_run1 (o : FSOracle) (hef : ErrFree o) (v : Bool) (pats : List String) :
    ∀ (es : List (String × SNode)) (srcP tgtP : FPath) (acc : Bool) (st : EngineState),
    wfForest es = true →
    ∃ st', hlEntries ⟨v, false⟩ o true pats es srcP tgtP acc st = .ok (acc, st') ∧
      st'.stats.files_linked + st'.stats.skipped =
        st.stats.files_linked + st.stats.skipped + entryCount pats es srcP ∧
      MirroredOk st'.tfs tgtP (mirroredPaths pats es srcP)
  | [], srcP, tgtP, acc, st => by
    intro _
    refine ⟨st, by simp only [hlEntries], by simp [entryCount], ?_⟩
    intro pr hpr
    rw [mirroredPaths] at hpr
    simp at hpr
  | (n, node) :: rest, srcP, tgtP, acc, st => by
    intro hwf
    obtain ⟨hdist, hwfch, hwfrest⟩ := wf_cons hwf
    by_cases hex : should_exclude (srcP ++ [n]) pats = true
    · have hcnt : entryCount pats ((n, node) :: rest) srcP =
          1 + entryCount pats rest srcP := by
        rw [entryCount]
        simp [hex]
      have hmir : mirroredPaths pats ((n, node) :: rest) srcP =
          mirroredPaths pats rest srcP := by
        rw [mirroredPaths]
        simp [hex]
      obtain ⟨st3, e3, hsum, hmirf⟩ := hlEntries_run1 o hef v pats rest srcP tgtP acc
        (bumpSkipped (logMsg st (.excluding (srcP ++ [n])))) hwfrest
      refine ⟨st3, ?_, ?_, ?_⟩
      · rw [hlEntries_cons_excl _ o true pats node rest srcP tgtP acc st hex]
        exact e3
      · rw [hcnt]
        simp [bumpSkipped, logMsg] at hsum
        omega
      · rw [hmir]
        exact hmirf
    · rw [Bool.not_eq_true] at hex
      cases node with
      | file id =>
        have hcnt : entryCount pats ((n, .file id) :: rest) srcP =
            1 + entryCount pats rest srcP := by
          rw [entryCount]
          simp [hex, nodeChildren, nodeLeafCount, entryCount]
        have hmir : mirroredPaths pats ((n, .file id) :: rest) srcP =
            ([n], some id) :: mirroredPaths pats rest srcP := by
          rw [mirroredPaths]
          simp [hex, nodeChildren, nodeMirrorHead, mirroredPaths]
        have hpost := hardlink_file_post o hef.2.2.1 hef.2.2.2 v (srcP ++ [n]) id
          (tgtP ++ [n]) st
        have hfsum := hardlink_file_sum o hef.2.2.1 hef.2.2.2 v (srcP ++ [n]) id
          (tgtP ++ [n]) st
        obtain ⟨st3, e3, hsum, hmirf⟩ := hlEntries_run1 o hef v pats rest srcP tgtP
          (acc && (hardlink_file ⟨v, false⟩ o (srcP ++ [n]) id (tgtP ++ [n]) true st).1)
          (hardlink_file ⟨v, false⟩ o (srcP ++ [n]) id (tgtP ++ [n]) true st).2 hwfrest
        rw [hpost.1, Bool.and_true] at e3
        have hfr : st3.tfs (tgtP ++ [n]) = some (.file id) := by
          have hfra := hlEntries_frame ⟨v, false⟩ o true pats rest srcP tgtP acc
            (hardlink_file ⟨v, false⟩ o (srcP ++ [n]) id (tgtP ++ [n]) true st).2
            (tgtP ++ [n]) (fun rel hrel => head_not_pre_rest hwf hrel tgtP [])
          rw [e3] at hfra
          simp only [resState] at hfra
          rw [hfra]
          exact hpost.2
        refine ⟨st3, ?_, ?_, ?_⟩
        · rw [hlEntries_cons_file _ o true pats id rest srcP tgtP acc st hex,
              hpost.1, Bool.and_true]
          exact e3
        · rw [hcnt]
          omega
        · rw [hmir, mirroredOk_cons]
          refine ⟨⟨?_, ?_⟩, hmirf⟩
          · intro id2 hid2
            obtain rfl : id = id2 := by simpa using hid2
            exact hfr
          · intro h2
            simp at h2
      | special =>
        have hcnt : entryCount pats ((n, .special) :: rest) srcP =
            1 + entryCount pats rest srcP := by
          rw [entryCount]
          simp [hex, nodeChildren, nodeLeafCount, entryCount]
        have hmir : mirroredPaths pats ((n, .special) :: rest) srcP =
            mirroredPaths pats rest srcP := by
          rw [mirroredPaths]
          simp [hex, nodeChildren, nodeMirrorHead, mirroredPaths]
        obtain ⟨st3, e3, hsum, hmirf⟩ := hlEntries_run1 o hef v pats rest srcP tgtP acc
          (bumpSkipped (logMsg st (.skippingSpecial (srcP ++ [n])))) hwfrest
        refine ⟨st3, ?_, ?_, ?_⟩
        · rw [hlEntries_cons_special _ o true pats rest srcP tgtP acc st hex]
          exact e3
        · rw [hcnt]
          simp [bumpSkipped, logMsg] at hsum
          omega
        · rw [hmir]
          exact hmirf
      | dir sub =>
        have hwfsub : wfForest sub = true := hwfch
        have hcnt : entryCount pats ((n, .dir sub) :: rest) srcP =
            entryCount pats sub (srcP ++ [n]) + entryCount pats rest srcP := by
          rw [entryCount]
          simp [hex, nodeChildren, nodeLeafCount]
        have hmir : mirroredPaths pats ((n, .dir sub) :: rest) srcP =
            ([n], (none : Option Ident)) ::
              ((mirroredPaths pats sub (srcP ++ [n])).map (fun pr => (n :: pr.1, pr.2)) ++
               mirroredPaths pats rest srcP) := by
          rw [mirroredPaths]
          simp [hex, nodeChildren, nodeMirrorHead]
        have hit := hef.1 (srcP ++ [n])
        -- the state after the directory-creation step, by target-entry case
        obtain ⟨st1, hds, hsome1, hls1⟩ :
            ∃ st1, dirStep ⟨v, false⟩ o (tgtP ++ [n]) st = .ok st1 ∧
              (st1.tfs (tgtP ++ [n])).isSome = true ∧
              st1.stats.files_linked + st1.stats.skipped =
                st.stats.files_linked + st.stats.skipped := by
          cases hT : st.tfs (tgtP ++ [n]) with
          | some e0 =>
            exact ⟨st, dirStep_exists ⟨v, false⟩ o hT, by rw [hT]; rfl, rfl⟩
          | none =>
            refine ⟨_, dirStep_real_absent v o hT (hef.2.1 (tgtP ++ [n])), ?_, ?_⟩
            · exact fsMkdirParents_self (by simp)
            · simp [bumpDirs, logMsg]
        obtain ⟨st2, e2, hsum2, hmir2⟩ := hlEntries_run1 o hef v pats sub (srcP ++ [n])
          (tgtP ++ [n]) true st1 hwfsub
        obtain ⟨st3, e3, hsum3, hmir3⟩ := hlEntries_run1 o hef v pats rest srcP tgtP
          acc st2 hwfrest
        have hrestfr : ∀ (x : FPath), st3.tfs (tgtP ++ n :: x) = st2.tfs (tgtP ++ n :: x) := by
          intro x
          have hfra := hlEntries_frame ⟨v, false⟩ o true pats rest srcP tgtP acc st2
            (tgtP ++ n :: x) (fun rel hrel => head_not_pre_rest hwf hrel tgtP x)
          rw [e3] at hfra
          simpa only [resState] using hfra
        have hsome2 : (st2.tfs (tgtP ++ [n])).isSome = true := by
          have := hlEntries_isSome o hef.2 v pats sub (srcP ++ [n]) (tgtP ++ [n]) true
            st1 (tgtP ++ [n]) hsome1
          rw [e2] at this
          simpa only [resState] using this
        refine ⟨st3, ?_, ?_, ?_⟩
        · rw [hlEntries_cons_dir_run _ o true pats sub rest srcP tgtP acc st hex hds hit, e2]
          simp only [wrapRec, Bool.and_true]
          exact e3
        · rw [hcnt]
          omega
        · rw [hmir, mirroredOk_cons]
          refine ⟨⟨?_, ?_⟩, ?_⟩
          · intro id2 hid2
            simp at hid2
          · intro _
            show (st3.tfs (tgtP ++ [n])).isSome = true
            rw [show (tgtP ++ [n] : FPath) = tgtP ++ n :: [] from rfl, hrestfr []]
            exact hsome2
          · rw [mirroredOk_append]
            refine ⟨?_, hmir3⟩
            rw [mirroredOk_map]
            refine mirroredOk_congr ?_ hmir2
            intro pr hpr
            rw [append_cons_eq]
            exact hrestfr pr.1
termination_by es => sizeOf es

/-- With overwrite, a file whose target already names the source identity
is recognised by `samefile` and skipped. -/
theorem hardlink_file_same (o : FSOracle) (v : Bool) (srcP : FPath) (id : Ident)
    (tgtP : FPath) (st : EngineState) (h : st.tfs tgtP = some (.file id)) :
    hardlink_file ⟨v, false⟩ o srcP id tgtP true st =
      (true, bumpSkipped (logMsg st (.alreadyHardlinked tgtP))) := by
  unfold hardlink_file
  rw [h]
  simp [sameFile]

/-- Second run with overwrite over an already-mirrored tree: every file is
found same-identity and skipped, no directory is created, no error occurs,
nothing is written; only `skipped` grows, by the entry count. -/
theorem hlEntries_run2 (o : FSOracle) (hef : ErrFree o) (v : Bool) (pats : List String) :
    ∀ (es : List (String × SNode)) (srcP tgtP : FPath) (acc : Bool) (st : EngineState),
    MirroredOk st.tfs tgtP (mirroredPaths pats es srcP) →
    ∃ st', hlEntries ⟨v, false⟩ o true pats es srcP tgtP acc st = .ok (acc, st') ∧
      st'.stats.files_linked = st.stats.files_linked ∧
      st'.stats.dirs_created = st.stats.dirs_created ∧
      st'.stats.errors = st.stats.errors ∧
      st'.stats.skipped = st.stats.skipped + entryCount pats es srcP ∧
      st'.tfs = st.tfs
  | [], srcP, tgtP, acc, st => by
    intro _
    refine ⟨st, by simp only [hlEntries], rfl, rfl, rfl, ?_, rfl⟩
    simp [entryCount]
  | (n, node) :: rest, srcP, tgtP, acc, st => by
    intro hmirall
    by_cases hex : should_exclude (srcP ++ [n]) pats = true
    · have hcnt : entryCount pats ((n, node) :: rest) srcP =
          1 + entryCount pats rest srcP := by
        rw [entryCount]
        simp [hex]
      have hmir : mirroredPaths pats ((n, node) :: rest) srcP =
          mirroredPaths pats rest srcP := by
        rw [mirroredPaths]
        simp [hex]
      rw [hmir] at hmirall
      obtain ⟨st3, e3, h1, h2, h3, h4, h5⟩ := hlEntries_run2 o hef v pats rest srcP tgtP acc
        (bumpSkipped (logMsg st (.excluding (srcP ++ [n])))) hmirall
      refine ⟨st3, ?_, ?_, ?_, ?_, ?_, h5.trans rfl⟩
      · rw [hlEntries_cons_excl _ o true pats node rest srcP tgtP acc st hex]
        exact e3
      all_goals simp [bumpSkipped, logMsg] at h1 h2 h3 h4
      · exact h1
      · exact h2
      · exact h3
      · rw [hcnt]
        omega
    · rw [Bool.not_eq_true] at hex
      cases node with
      | file id =>
        have hcnt : entryCount pats ((n, .file id) :: rest) srcP =
            1 + entryCount pats rest srcP := by
          rw [entryCount]
          simp [hex, nodeChildren, nodeLeafCount, entryCount]
        have hmir : mirroredPaths pats ((n, .file id) :: rest) srcP =
            ([n], some id) :: mirroredPaths pats rest srcP := by
          rw [mirroredPaths]
          simp [hex, nodeChildren, nodeMirrorHead, mirroredPaths]
        rw [hmir] at hmirall
        obtain ⟨⟨hfile, -⟩, hrest⟩ := mirroredOk_cons.mp hmirall
        have hfact : st.tfs (tgtP ++ [n]) = some (.file id) := hfile id rfl
        have hsame := hardlink_file_same o v (srcP ++ [n]) id (tgtP ++ [n]) st hfact
        obtain ⟨st3, e3, h1, h2, h3, h4, h5⟩ := hlEntries_run2 o hef v pats rest srcP tgtP acc
          (bumpSkipped (logMsg st (.alreadyHardlinked (tgtP ++ [n])))) hrest
        refine ⟨st3, ?_, ?_, ?_, ?_, ?_, h5.trans rfl⟩
        · rw [hlEntries_cons_file _ o true pats id rest srcP tgtP acc st hex, hsame]
          simpa using e3
        all_goals simp [bumpSkipped, logMsg] at h1 h2 h3 h4
        · exact h1
        · exact h2
        · exact h3
        · rw [hcnt]
          omega
      | special =>
        have hcnt : entryCount pats ((n, .special) :: rest) srcP =
            1 + entryCount pats rest srcP := by
          rw [entryCount]
          simp [hex, nodeChildren, nodeLeafCount, entryCount]
        have hmir : mirroredPaths pats ((n, .special) :: rest) srcP =
            mirroredPaths pats rest srcP := by
          rw [mirroredPaths]
          simp [hex, nodeChildren, nodeMirrorHead, mirroredPaths]
        rw [hmir] at hmirall
        obtain ⟨st3, e3, h1, h2, h3, h4, h5⟩ := hlEntries_run2 o hef v pats rest srcP tgtP acc
          (bumpSkipped (logMsg st (.skippingSpecial (srcP ++ [n])))) hmirall
        refine ⟨st3, ?_, ?_, ?_, ?_, ?_, h5.trans rfl⟩
        · rw [hlEntries_cons_special _ o true pats rest srcP tgtP acc st hex]
          exact e3
        all_goals simp [bumpSkipped, logMsg] at h1 h2 h3 h4
        · exact h1
        · exact h2
        · exact h3
        · rw [hcnt]
          omega
      | dir sub =>
        have hcnt : entryCount pats ((n, .dir sub) :: rest) srcP =
            entryCount pats sub (srcP ++ [n]) + entryCount pats rest srcP := by
          rw [entryCount]
          simp [hex, nodeChildren, nodeLeafCount]
        have hmir : mirroredPaths pats ((n, .dir sub) :: rest) srcP =
            ([n], (none : Option Ident)) ::
              ((mirroredPaths pats sub (srcP ++ [n])).map (fun pr => (n :: pr.1, pr.2)) ++
               mirroredPaths pats rest srcP) := by
          rw [mirroredPaths]
          simp [hex, nodeChildren, nodeMirrorHead]
        rw [hmir] at hmirall
        obtain ⟨⟨-, hdirfact⟩, hrestall⟩ := mirroredOk_cons.mp hmirall
        obtain ⟨hmapped, hrest⟩ := mirroredOk_append.mp hrestall
        have hsubfacts := mirroredOk_map.mp hmapped
        obtain ⟨e0, hT⟩ := Option.isSome_iff_exists.mp (hdirfact rfl)
        have hds := dirStep_exists ⟨v, false⟩ o hT
        have hit := hef.1 (srcP ++ [n])
        obtain ⟨st2, e2, g1, g2, g3, g4, g5⟩ := hlEntries_run2 o hef v pats sub
          (srcP ++ [n]) (tgtP ++ [n]) true st hsubfacts
        have hrest2 : MirroredOk st2.tfs tgtP (mirroredPaths pats rest srcP) := by
          rw [g5]
          exact hrest
        obtain ⟨st3, e3, h1, h2, h3, h4, h5⟩ := hlEntries_run2 o hef v pats rest srcP tgtP
          acc st2 hrest2
        refine ⟨st3, ?_, ?_, ?_, ?_, ?_, (h5.trans g5)⟩
        · rw [hlEntries_cons_dir_run _ o true pats sub rest srcP tgtP acc st hex hds hit, e2]
          simp only [wrapRec, Bool.and_true]
          exact e3
        · omega
        · omega
        · omega
        · rw [hcnt]
          omega
termination_by es => sizeOf es

/-- C3: for every well-formed source tree, running the mirroring twice in
succession with identical arguments and `overwrite=True`, in an
environment where every filesystem primitive succeeds, succeeds (returns
`True`) both times; in the second run no file is re-linked: every
already-mirrored file is detected as same-identity and counted in
`skipped` — the second run counts `files_linked = 0`, `errors = 0`, and
its `skipped` equals the first run's `files_linked + skipped`. -/
theorem c3_idempotent (o : FSOracle) (hef : ErrFree o) (v : Bool) (pats : List String)
    (entries : List (String × SNode)) (srcP tgtP : FPath) (T0 : TFS) (tr : List LogMsg)
    (hwf : wfForest entries = true) (htgt : tgtP ≠ []) :
    ∃ s1 s2,
      hardlink_directory ⟨v, false⟩ o (.dir entries) srcP tgtP true pats
        ⟨⟨0, 0, 0, 0⟩, T0, tr⟩ = .ok (true, s1) ∧
      hardlink_directory ⟨v, false⟩ o (.dir entries) srcP tgtP true pats
        ⟨⟨0, 0, 0, 0⟩, s1.tfs, []⟩ = .ok (true, s2) ∧
      s2.stats.files_linked = 0 ∧
      s2.stats.errors = 0 ∧
      s2.stats.skipped = s1.stats.files_linked + s1.stats.skipped := by
  have hit := hef.1 srcP
  obtain ⟨s1, e1, hsum1, hmir1, hsome1⟩ : ∃ s1,
      hardlink_directory ⟨v, false⟩ o (.dir entries) srcP tgtP true pats
        ⟨⟨0, 0, 0, 0⟩, T0, tr⟩ = .ok (true, s1) ∧
      s1.stats.files_linked + s1.stats.skipped = entryCount pats entries srcP ∧
      MirroredOk s1.tfs tgtP (mirroredPaths pats entries srcP) ∧
      (s1.tfs tgtP).isSome = true := by
    cases hT : T0 tgtP with
    | some e0 =>
      obtain ⟨st', er, hsum, hmir⟩ := hlEntries_run1 o hef v pats entries srcP tgtP true
        ⟨⟨0, 0, 0, 0⟩, T0, tr⟩ hwf
      have hsome : (st'.tfs tgtP).isSome = true := by
        have h0 : (((⟨⟨0, 0, 0, 0⟩, T0, tr⟩ : EngineState)).tfs tgtP).isSome = true := by
          show (T0 tgtP).isSome = true
          rw [hT]
          rfl
        have hpres := hlEntries_isSome o hef.2 v pats entries srcP tgtP true
          ⟨⟨0, 0, 0, 0⟩, T0, tr⟩ tgtP h0
        rw [er] at hpres
        simpa only [resState] using hpres
      refine ⟨st', ?_, by simpa using hsum, hmir, hsome⟩
      rw [hardlink_directory_existing ⟨v, false⟩ o entries srcP tgtP true pats _ hT,
          hlRec_run ⟨v, false⟩ o true pats entries srcP tgtP _ hit er]
    | none =>
      obtain ⟨st', er, hsum, hmir⟩ := hlEntries_run1 o hef v pats entries srcP tgtP true
        (bumpDirs (logMsg
          { (⟨⟨0, 0, 0, 0⟩, T0, tr⟩ : EngineState) with tfs := fsMkdirParents T0 tgtP }
          (.createdTargetDir tgtP))) hwf
      have hsome : (st'.tfs tgtP).isSome = true := by
        have h0 : (((bumpDirs (logMsg
            { (⟨⟨0, 0, 0, 0⟩, T0, tr⟩ : EngineState) with tfs := fsMkdirParents T0 tgtP }
            (.createdTargetDir tgtP))) : EngineState).tfs tgtP).isSome = true := by
          show ((fsMkdirParents T0 tgtP) tgtP).isSome = true
          exact fsMkdirParents_self htgt
        have hpres := hlEntries_isSome o hef.2 v pats entries srcP tgtP true _ tgtP h0
        rw [er] at hpres
        simpa only [resState] using hpres
      refine ⟨st', ?_, by simpa [bumpDirs, logMsg] using hsum, hmir, hsome⟩
      rw [hardlink_directory_absent_real v o entries srcP tgtP true pats _ hT (hef.2.1 tgtP),
          hlRec_run ⟨v, false⟩ o true pats entries srcP tgtP _ hit er]
  obtain ⟨e0', hT2⟩ := Option.isSome_iff_exists.mp hsome1
  obtain ⟨st2, er2, k1, k2, k3, k4, k5⟩ := hlEntries_run2 o hef v pats entries srcP tgtP
    true ⟨⟨0, 0, 0, 0⟩, s1.tfs, []⟩ hmir1
  refine ⟨s1, st2, e1, ?_, by simpa using k1, by simpa using k3, ?_⟩
  · rw [hardlink_directory_existing ⟨v, false⟩ o entries srcP tgtP true pats
          ⟨⟨0, 0, 0, 0⟩, s1.tfs, []⟩ hT2,
        hlRec_run ⟨v, false⟩ o true pats entries srcP tgtP _ hit er2]
  · have k4' : st2.stats.skipped = entryCount pats entries srcP := by simpa using k4
    omega

/-- Witness for C3: a one-file tree, fresh target, succeeding
environment: the first run links the file, the second skips it. -/
theorem c3_idempotent_witness :
    ∃ s1 s2,
      hardlink_directory ⟨false, false⟩ oNone (.dir [("f", .file (0, 0))])
        ["s"] ["t"] true [] ⟨⟨0, 0, 0, 0⟩, tfsEmpty, []⟩ = .ok (true, s1) ∧
      hardlink_directory ⟨false, false⟩ oNone (.dir [("f", .file (0, 0))])
        ["s"] ["t"] true [] ⟨⟨0, 0, 0, 0⟩, s1.tfs, []⟩ = .ok (true, s2) ∧
      s2.stats.files_linked = 0 ∧
      s2.stats.errors = 0 ∧
      s2.stats.skipped = s1.stats.files_linked + s1.stats.skipped :=
  c3_idempotent oNone oNone_errFree false [] [("f", .file (0, 0))] ["s"] ["t"]
    tfsEmpty [] (by simp [wfForest, nodeChildren]) (by simp)
